import Mathlib

/-!
# Verification of next-pwa-turbo core algorithms

A shallow embedding, in Lean 4, of the core algorithms of the
`next-pwa-turbo` repository:

* `src/worker/cache-strategies.ts` — default runtime-caching rules and the
  override-by-identity merge (`normalizeUrlPattern`, `mergeRuntimeCaching`);
* `src/utils/security.ts` — `sanitizePath`, `sanitizeRuntimeCachingRule`,
  `escapeForServiceWorker`, `hasPathTraversal`;
* `src/adapter/manifest-generator.ts` — `generatePrecacheManifest` and its
  helpers (`isPathWithinProject`, `needsRevision`, exclusion matching,
  URL-prefix rewriting, revision hashing).

JavaScript strings are modelled as `List Char`; JavaScript's single-threaded
async I/O is modelled by passing an explicit, pure filesystem snapshot.
Fallible code returns `Option`/`Except`.  All definitions are executable so
that every theorem can be checked on concrete inputs.
-/

/-- Convert a Lean string literal to the `List Char` representation used for
JavaScript strings throughout this development. -/
def cs (s : String) : List Char := s.data

-- =============================================================================
-- § Cache strategies (src/worker/cache-strategies.ts)
-- =============================================================================

/-- A JavaScript `urlPattern` value: a plain string, a compiled `RegExp`
(carrying its `source` and `flags`), or a predicate function (carrying its
textual form, which is what `Function.prototype.toString` returns). -/
inductive UrlPattern
  | strPat (s : List Char)
  | regexPat (source : List Char) (flags : List Char)
  | funcPat (text : List Char)
  deriving DecidableEq, Repr

/-- A runtime caching rule.  `mergeRuntimeCaching` only inspects
`urlPattern`; the remaining fields (`handler`, `method`, `options`) are
carried opaquely as `payload` so that rules with equal patterns but
different handlers are still distinct values, exactly as in the source. -/
structure RuntimeCachingRule where
  urlPattern : UrlPattern
  payload : List Char
  deriving DecidableEq, Repr

/-- `normalizeUrlPattern` from `src/worker/cache-strategies.ts`:
string patterns are used verbatim, `RegExp` patterns contribute their
`source`, functions their textual form (`toString()`). -/
def normalizeUrlPattern : UrlPattern → List Char
  | .strPat s => s
  | .regexPat source _ => source
  | .funcPat text => text

/-- `mergeRuntimeCaching` from `src/worker/cache-strategies.ts`: build the
set of normalized custom patterns, keep every default whose normalized
pattern is not in that set, and append the survivors after the custom
rules. -/
def mergeRuntimeCaching (custom defaults : List RuntimeCachingRule) :
    List RuntimeCachingRule :=
  let customPatterns := custom.map (fun rule => normalizeUrlPattern rule.urlPattern)
  let filteredDefaults := defaults.filter
    (fun defaultRule => ¬ customPatterns.contains (normalizeUrlPattern defaultRule.urlPattern))
  custom ++ filteredDefaults

/-- The normalized identity of a rule, used for override comparisons. -/
def ruleIdentity (r : RuntimeCachingRule) : List Char :=
  normalizeUrlPattern r.urlPattern

-- =============================================================================
-- § Theorems for C2 and C7
-- =============================================================================

/-- The merge is literally `custom` followed by the defaults whose identity
is not among the identities of `custom` (shared helper for the theorems
below). -/
lemma mergeRuntimeCaching_eq (custom defaults : List RuntimeCachingRule) :
    mergeRuntimeCaching custom defaults =
      custom ++ defaults.filter
        (fun d => ruleIdentity d ∉ custom.map ruleIdentity) := by
  have hfilter :
      defaults.filter
        (fun defaultRule =>
          ¬ (custom.map (fun rule => normalizeUrlPattern rule.urlPattern)).contains
            (normalizeUrlPattern defaultRule.urlPattern)) =
      defaults.filter (fun d => ruleIdentity d ∉ custom.map ruleIdentity) := by
    apply List.filter_congr
    intro d _
    simp [ruleIdentity, List.contains_iff_exists_mem_beq, List.mem_map]
  simp only [mergeRuntimeCaching]
  rw [hfilter]

/-- C2: `mergeRuntimeCaching custom defaults` is `custom` (in order) followed
by exactly those defaults whose normalized identity does not occur among the
identities of `custom`, in their original relative order (a stable filter,
not a sort); consequently its length is `custom.length` plus the number of
non-overridden defaults.  (The Lean embedding is pure, so neither input can
be mutated.) -/
theorem mergeRuntimeCaching_characterization
    (custom defaults : List RuntimeCachingRule) :
    mergeRuntimeCaching custom defaults =
      custom ++ defaults.filter
        (fun d => ruleIdentity d ∉ custom.map ruleIdentity) ∧
    (mergeRuntimeCaching custom defaults).length =
      custom.length + (defaults.filter
        (fun d => ruleIdentity d ∉ custom.map ruleIdentity)).length := by
  have heq := mergeRuntimeCaching_eq custom defaults
  exact ⟨heq, by rw [heq, List.length_append]⟩

/-- A concrete rule used in counterexamples. -/
def sampleRule : RuntimeCachingRule :=
  { urlPattern := .strPat (cs "^/api/.*"), payload := cs "NetworkFirst" }

/-- C7 counterexample: with `custom = [sampleRule, sampleRule]` and
`defaults = []`, the merged list contains two elements with the same
normalized urlPattern identity, so the claim is false for arbitrary rule
lists. -/
theorem mergeRuntimeCaching_not_always_nodup :
    ¬ ((mergeRuntimeCaching [sampleRule, sampleRule] []).map ruleIdentity).Nodup := by
  decide

/-- C7 (amended): if the normalized identities within `custom` are pairwise
distinct and likewise within `defaults`, then no two elements of
`mergeRuntimeCaching custom defaults` share the same normalized urlPattern
identity. -/
theorem mergeRuntimeCaching_nodup
    (custom defaults : List RuntimeCachingRule)
    (hc : (custom.map ruleIdentity).Nodup)
    (hd : (defaults.map ruleIdentity).Nodup) :
    ((mergeRuntimeCaching custom defaults).map ruleIdentity).Nodup := by
  rw [mergeRuntimeCaching_eq, List.map_append, List.nodup_append]
  refine ⟨hc, ?_, ?_⟩
  · have hsub : List.Sublist
        ((defaults.filter
          (fun d => ruleIdentity d ∉ custom.map ruleIdentity)).map ruleIdentity)
        (defaults.map ruleIdentity) :=
      (List.filter_sublist defaults).map ruleIdentity
    exact hd.sublist hsub
  · intro a ha hb
    rcases List.mem_map.mp hb with ⟨d, hdMem, hdId⟩
    have hpred := List.of_mem_filter hdMem
    simp only [decide_eq_true_eq] at hpred
    exact hpred (hdId ▸ ha)

/-- C7 witness: the amended theorem applied to a concrete pair of lists. -/
theorem mergeRuntimeCaching_nodup_witness :
    (([sampleRule].map ruleIdentity).Nodup ∧ (([] : List RuntimeCachingRule).map ruleIdentity).Nodup) ∧
    ((mergeRuntimeCaching [sampleRule] []).map ruleIdentity).Nodup :=
  ⟨⟨by decide, by decide⟩,
    mergeRuntimeCaching_nodup [sampleRule] [] (by decide) (by decide)⟩

-- =============================================================================
-- § JavaScript value model (for src/utils/security.ts)
-- =============================================================================

/-- A JavaScript runtime value, as far as the security utilities inspect
them.  Numbers are modelled as integers (`Number.isInteger` holds for every
modelled number; non-integral doubles are floating point and outside the
model).  Functions carry their textual form, compiled `RegExp` values their
`source` and `flags`.  Objects are insertion-ordered association lists with
unique keys, matching plain JS objects. -/
inductive JSValue
  | undef
  | jsNull
  | boolean (b : Bool)
  | number (n : Int)
  | jsString (s : List Char)
  | bigint (n : Int)
  | symbol (desc : List Char)
  | func (text : List Char)
  | regexp (source flags : List Char)
  | array (elems : List JSValue)
  | object (fields : List ((List Char) × JSValue))
  deriving Repr

/-- The NUL character, a recurring security concern in the source. -/
def nulChar : Char := Char.ofNat 0

/-- `typeof v === 'object'` in JavaScript: true for `null`, plain objects,
arrays and compiled patterns; false for every primitive and for
functions. -/
def jsTypeofIsObject : JSValue → Bool
  | .jsNull => true
  | .object _ => true
  | .array _ => true
  | .regexp _ _ => true
  | _ => false

/-- Property access `v['key']`: association-list lookup on plain objects,
`undefined` on everything else (the own-property lookups the sanitizer
performs yield `undefined` on arrays and compiled patterns). -/
def getField (v : JSValue) (key : List Char) : JSValue :=
  match v with
  | .object fields =>
    match fields.find? (fun f => f.fst == key) with
    | some f => f.snd
    | none => .undef
  | _ => (.undef)

/-- The keys of a plain object (empty for any other value). -/
def objKeys : JSValue → List (List Char)
  | .object fields => fields.map Prod.fst
  | _ => []

/-- `v === null` / `v !== null` checks. -/
def isJsNull : JSValue → Bool
  | .jsNull => true
  | _ => false

/-- `v === undefined` / `v !== undefined` checks. -/
def isJsUndef : JSValue → Bool
  | .undef => true
  | _ => false

/-- `RegExp.prototype.toString()`: `'/' + source + '/' + flags`. -/
def jsRegexpToString (source flags : List Char) : List Char :=
  [Char.ofNat 47] ++ source ++ [Char.ofNat 47] ++ flags

-- =============================================================================
-- § RuleSanitizer (sanitizeRuntimeCachingRule, src/utils/security.ts)
-- =============================================================================

/-- The `ALLOWED_HANDLERS` allow-list from `src/utils/security.ts`. -/
def ALLOWED_HANDLERS : List (List Char) :=
  [cs "CacheFirst", cs "CacheOnly", cs "NetworkFirst", cs "NetworkOnly",
   cs "StaleWhileRevalidate"]

/-- The `urlPattern` validation step of `sanitizeRuntimeCachingRule`:
a string must be non-empty and NUL-free, a compiled pattern is stringified
with `toString()`, anything else is rejected. -/
def validateUrlPatternField : JSValue → Option (List Char)
  | .jsString s =>
    if s.length = 0 then none
    else if s.contains nulChar then none
    else some s
  | .regexp source flags => some (jsRegexpToString source flags)
  | _ => none

/-- A character allowed in `cacheName` by the `^[a-zA-Z0-9_-]+$` pattern. -/
def isCacheNameChar (c : Char) : Bool :=
  (Char.ofNat 97 ≤ c && c ≤ Char.ofNat 122) ||
  (Char.ofNat 65 ≤ c && c ≤ Char.ofNat 90) ||
  (Char.ofNat 48 ≤ c && c ≤ Char.ofNat 57) ||
  c = Char.ofNat 95 || c = Char.ofNat 45

/-- One bounded positive-integer option: copied through under `key` exactly
when the field is an integer `n` with `0 < n ≤ hi` (the repeated
`typeof === 'number' && Number.isInteger && 0 < n && n <= hi` shape of the
source; integrality is built into the number model). -/
def intFieldPart (v : JSValue) (key : List Char) (hi : Int) :
    List ((List Char) × JSValue) :=
  match getField v key with
  | .number n => if 0 < n ∧ n ≤ hi then [(key, .number n)] else []
  | _ => []

/-- The `expiration` sub-object sanitization: `maxEntries` and
`maxAgeSeconds` are copied through only as positive integers within their
bounds, in that insertion order. -/
def sanitizeExpirationFields (expiration : JSValue) : List ((List Char) × JSValue) :=
  intFieldPart expiration (cs "maxEntries") 10000 ++
  intFieldPart expiration (cs "maxAgeSeconds") 31536000

/-- The `cacheName` option: copied through only as a string matching
`^[a-zA-Z0-9_-]+$` of length at most 100. -/
def cacheNamePart (options : JSValue) : List ((List Char) × JSValue) :=
  match getField options (cs "cacheName") with
  | .jsString s =>
    if s ≠ [] ∧ s.all isCacheNameChar ∧ s.length ≤ 100
    then [(cs "cacheName", .jsString s)] else []
  | _ => []

/-- The `expiration` option: present only when the field is a non-null
object value and at least one of its sub-options survives sanitization. -/
def expirationPart (options : JSValue) : List ((List Char) × JSValue) :=
  let expiration := getField options (cs "expiration")
  if jsTypeofIsObject expiration ∧ isJsNull expiration = false then
    let expFields := sanitizeExpirationFields expiration
    if expFields.length > 0 then [(cs "expiration", .object expFields)] else []
  else []

/-- The `options` sanitization: each allow-listed option is independently
re-validated and copied through in source insertion order (`cacheName`,
`expiration`, `networkTimeoutSeconds`); everything else is dropped. -/
def sanitizeOptionsFields (options : JSValue) : List ((List Char) × JSValue) :=
  cacheNamePart options ++ expirationPart options ++
  intFieldPart options (cs "networkTimeoutSeconds") 300

/-- `sanitizeRuntimeCachingRule` from `src/utils/security.ts`: reject
non-objects and `null`; validate `urlPattern` (non-empty NUL-free string, or
stringified compiled pattern); require `handler` to be a string equal
(case-sensitively) to one of the five allow-listed names; then rebuild the
rule from scratch with only allow-listed, individually revalidated
fields. -/
def sanitizeRuntimeCachingRule (rule : JSValue) : Option JSValue :=
  if isJsNull rule ∨ jsTypeofIsObject rule = false then none
  else
    match validateUrlPatternField (getField rule (cs "urlPattern")) with
    | none => none
    | some urlPattern =>
      match getField rule (cs "handler") with
      | .jsString handler =>
        if handler ∈ ALLOWED_HANDLERS then
          let optionsValue := getField rule (cs "options")
          let optionsPart :=
            if isJsUndef optionsValue = false ∧ jsTypeofIsObject optionsValue ∧
                isJsNull optionsValue = false then
              let optFields := sanitizeOptionsFields optionsValue
              if optFields.length > 0 then [(cs "options", .object optFields)] else []
            else []
          some (.object ([(cs "urlPattern", .jsString urlPattern),
                          (cs "handler", .jsString handler)] ++ optionsPart))
        else none
      | _ => none

-- =============================================================================
-- § Theorems for C10 and C8
-- =============================================================================

/-- Field lookup on an object finds the head field when the key matches. -/
lemma getField_cons_eq (k : List Char) (v : JSValue)
    (rest : List ((List Char) × JSValue)) :
    getField (.object ((k, v) :: rest)) k = v := by
  simp [getField, List.find?]

/-- Field lookup on an object skips a head field with a different key. -/
lemma getField_cons_ne (k k' : List Char) (v : JSValue)
    (rest : List ((List Char) × JSValue)) (h : (k' == k) = false) :
    getField (.object ((k', v) :: rest)) k = getField (.object rest) k := by
  simp [getField, List.find?, h]

/-- A rule whose compiled `urlPattern` contains a NUL byte in its source. -/
def nulRegexpRule : JSValue :=
  .object [(cs "urlPattern", .regexp (cs "a\x00b") (cs "")),
           (cs "handler", .jsString (cs "CacheFirst"))]

/-- The sanitizer's output for `nulRegexpRule`. -/
def nulRegexpRuleOut : JSValue :=
  .object [(cs "urlPattern", .jsString (cs "/a\x00b/")),
           (cs "handler", .jsString (cs "CacheFirst"))]

/-- C10: the NUL-byte rejection applies only to string urlPatterns — a rule
whose urlPattern is a compiled pattern with a NUL byte in its source and an
allow-listed handler sanitizes to a non-null result whose urlPattern string
still contains the NUL byte. -/
theorem sanitizeRule_nul_regexp_passes :
    sanitizeRuntimeCachingRule nulRegexpRule = some nulRegexpRuleOut ∧
    getField nulRegexpRuleOut (cs "urlPattern") = .jsString (cs "/a\x00b/") ∧
    (cs "/a\x00b/").contains nulChar = true :=
  ⟨rfl, rfl, by decide⟩

/-- A rule whose `urlPattern` is the compiled pattern `/abc/`. -/
def regexpSourceRule : JSValue :=
  .object [(cs "urlPattern", .regexp (cs "abc") (cs "")),
           (cs "handler", .jsString (cs "CacheFirst"))]

/-- The sanitizer's output for `regexpSourceRule`. -/
def regexpSourceRuleOut : JSValue :=
  .object [(cs "urlPattern", .jsString (cs "/abc/")),
           (cs "handler", .jsString (cs "CacheFirst"))]

/-- C8 counterexample: for the compiled pattern `/abc/` the sanitizer emits
the `toString()` form `"/abc/"`, not the pattern body `"abc"` alone, so the
claim as stated is false at this input. -/
theorem sanitizeRule_regexp_not_source :
    sanitizeRuntimeCachingRule regexpSourceRule = some regexpSourceRuleOut ∧
    getField regexpSourceRuleOut (cs "urlPattern") ≠ .jsString (cs "abc") := by
  refine ⟨rfl, ?_⟩
  have h : getField regexpSourceRuleOut (cs "urlPattern") =
      .jsString (cs "/abc/") := rfl
  rw [h]
  intro hEq
  injection hEq with hs
  exact absurd hs (by decide)

/-- C8 (amended): for every candidate whose `urlPattern` field is a compiled
pattern, a non-null sanitizer result carries the `RegExp.prototype.toString`
form of the pattern — `'/' + source + '/' + flags` — as its urlPattern. -/
theorem sanitizeRule_regexp_toString
    (rule : JSValue) (source flags : List Char) (out : JSValue)
    (hpat : getField rule (cs "urlPattern") = .regexp source flags)
    (hout : sanitizeRuntimeCachingRule rule = some out) :
    getField out (cs "urlPattern") = .jsString (jsRegexpToString source flags) := by
  unfold sanitizeRuntimeCachingRule at hout
  rw [hpat] at hout
  split at hout
  · exact absurd hout (by simp)
  · simp only [validateUrlPatternField] at hout
    cases hh : getField rule (cs "handler") <;> rw [hh] at hout <;>
      simp only [] at hout
    case jsString h =>
      split at hout
      · have hobj := Option.some.inj hout
        rw [← hobj]
        simp only [List.cons_append, List.nil_append]
        rw [getField_cons_eq]
      · exact absurd hout (by simp)
    all_goals exact absurd hout (by simp)

/-- C8 witness: the amended theorem applied to the concrete `/abc/` rule. -/
theorem sanitizeRule_regexp_toString_witness :
    getField regexpSourceRule (cs "urlPattern") = .regexp (cs "abc") (cs "") ∧
    getField regexpSourceRuleOut (cs "urlPattern") =
      .jsString (jsRegexpToString (cs "abc") (cs "")) :=
  ⟨rfl, sanitizeRule_regexp_toString regexpSourceRule (cs "abc") (cs "")
    regexpSourceRuleOut rfl rfl⟩

-- =============================================================================
-- § Theorem for C5
-- =============================================================================

/-- Lookup on the empty object yields `undefined`. -/
lemma getField_object_nil (key : List Char) :
    getField (.object []) key = .undef := rfl

/-- Lookup skips a whole block of fields none of which carries the key. -/
lemma getField_object_append (fs1 fs2 : List ((List Char) × JSValue))
    (key : List Char) (h : key ∉ fs1.map Prod.fst) :
    getField (.object (fs1 ++ fs2)) key = getField (.object fs2) key := by
  induction fs1 with
  | nil => simp
  | cons f t ih =>
    simp only [List.map_cons, List.mem_cons, not_or] at h
    obtain ⟨h1, h2⟩ := h
    obtain ⟨k, v⟩ := f
    simp only [List.cons_append]
    rw [getField_cons_ne key k v (t ++ fs2)
      (beq_eq_false_iff_ne.mpr (fun hkk => h1 hkk.symm))]
    exact ih h2

/-- `intFieldPart` is empty or a single binding under its key. -/
lemma intFieldPart_shape (v : JSValue) (key : List Char) (hi : Int) :
    intFieldPart v key hi = [] ∨
    ∃ n : Int, intFieldPart v key hi = [(key, .number n)] := by
  cases h : getField v key <;> simp only [intFieldPart, h] <;>
    first
    | (split <;> simp)
    | simp

/-- `cacheNamePart` is empty or a single binding under `cacheName`. -/
lemma cacheNamePart_shape (options : JSValue) :
    cacheNamePart options = [] ∨
    ∃ s, cacheNamePart options = [(cs "cacheName", .jsString s)] := by
  cases h : getField options (cs "cacheName") <;> simp only [cacheNamePart, h] <;>
    first
    | (split <;> simp)
    | simp

/-- `expirationPart` is empty or a single binding under `expiration`
containing the sanitized sub-object. -/
lemma expirationPart_shape (options : JSValue) :
    expirationPart options = [] ∨
    expirationPart options =
      [(cs "expiration",
        .object (sanitizeExpirationFields (getField options (cs "expiration"))))] := by
  simp only [expirationPart]
  split
  · split
    · right; rfl
    · left; rfl
  · left; rfl

/-- Keys of `intFieldPart`. -/
lemma intFieldPart_keys (v : JSValue) (key : List Char) (hi : Int) :
    (intFieldPart v key hi).map Prod.fst ⊆ [key] := by
  rcases intFieldPart_shape v key hi with h | ⟨n, h⟩ <;> simp [h]

/-- Keys of `cacheNamePart`. -/
lemma cacheNamePart_keys (options : JSValue) :
    (cacheNamePart options).map Prod.fst ⊆ [cs "cacheName"] := by
  rcases cacheNamePart_shape options with h | ⟨s, h⟩ <;> simp [h]

/-- Keys of `expirationPart`. -/
lemma expirationPart_keys (options : JSValue) :
    (expirationPart options).map Prod.fst ⊆ [cs "expiration"] := by
  rcases expirationPart_shape options with h | h <;> simp [h]

/-- The sanitized `expiration` object carries only allow-listed keys. -/
lemma sanitizeExpirationFields_keys (expiration : JSValue) :
    (sanitizeExpirationFields expiration).map Prod.fst ⊆
      [cs "maxEntries", cs "maxAgeSeconds"] := by
  unfold sanitizeExpirationFields
  intro k hk
  simp only [List.map_append, List.mem_append] at hk
  rcases hk with hk | hk
  · have h1 := intFieldPart_keys expiration (cs "maxEntries") 10000 hk
    simp only [List.mem_singleton] at h1
    simp [h1]
  · have h1 := intFieldPart_keys expiration (cs "maxAgeSeconds") 31536000 hk
    simp only [List.mem_singleton] at h1
    simp [h1]

/-- The sanitized `options` object carries only allow-listed keys. -/
lemma sanitizeOptionsFields_keys (options : JSValue) :
    (sanitizeOptionsFields options).map Prod.fst ⊆
      [cs "cacheName", cs "expiration", cs "networkTimeoutSeconds"] := by
  unfold sanitizeOptionsFields
  intro k hk
  simp only [List.map_append, List.mem_append] at hk
  rcases hk with (hk | hk) | hk
  · have h1 := cacheNamePart_keys options hk
    simp only [List.mem_singleton] at h1
    simp [h1]
  · have h1 := expirationPart_keys options hk
    simp only [List.mem_singleton] at h1
    simp [h1]
  · have h1 := intFieldPart_keys options (cs "networkTimeoutSeconds") 300 hk
    simp only [List.mem_singleton] at h1
    simp [h1]

/-- Looking up `expiration` in the sanitized options object yields either
`undefined` or the sanitized expiration sub-object. -/
lemma getField_options_expiration (options : JSValue) :
    getField (.object (sanitizeOptionsFields options)) (cs "expiration") = .undef ∨
    getField (.object (sanitizeOptionsFields options)) (cs "expiration") =
      .object (sanitizeExpirationFields (getField options (cs "expiration"))) := by
  unfold sanitizeOptionsFields
  rw [List.append_assoc]
  rw [getField_object_append _ _ _ (fun hmem => by
    have h1 := cacheNamePart_keys options hmem
    simp only [List.mem_singleton] at h1
    exact absurd h1 (by decide))]
  rcases expirationPart_shape options with he | he <;> rw [he]
  · left
    simp only [List.nil_append]
    rcases intFieldPart_shape options (cs "networkTimeoutSeconds") 300 with hn | ⟨n, hn⟩ <;>
      rw [hn]
    · rfl
    · rw [getField_cons_ne _ _ _ _ (by decide)]
      rfl
  · right
    simp only [List.cons_append]
    rw [getField_cons_eq]

/-- Every non-null sanitizer result is an object rebuilt from scratch:
urlPattern and handler bindings, followed by an optional sanitized options
binding; the handler is drawn from the allow-list. -/
lemma sanitizeRule_shape (rule out : JSValue)
    (h : sanitizeRuntimeCachingRule rule = some out) :
    ∃ up handler optPart,
      out = .object ([(cs "urlPattern", .jsString up),
                      (cs "handler", .jsString handler)] ++ optPart) ∧
      handler ∈ ALLOWED_HANDLERS ∧
      (optPart = [] ∨
        ∃ ov, optPart = [(cs "options", .object (sanitizeOptionsFields ov))]) := by
  unfold sanitizeRuntimeCachingRule at h
  split at h
  · exact absurd h (by simp)
  split at h
  · exact absurd h (by simp)
  case h_2 up hup =>
    split at h
    case h_2 => exact absurd h (by simp)
    case h_1 handler heq =>
      split at h
      case isFalse => exact absurd h (by simp)
      case isTrue hmem =>
        refine ⟨up, handler, _, (Option.some.inj h).symm, hmem, ?_⟩
        split
        case isTrue hcond =>
          by_cases hlen :
            (sanitizeOptionsFields (getField rule (cs "options"))).length > 0
          · exact Or.inr ⟨getField rule (cs "options"), by simp [hlen]⟩
          · exact Or.inl (by simp [hlen])
        case isFalse => exact Or.inl rfl

/-- C5: (a) every non-null result of `sanitizeRuntimeCachingRule` contains
only the allow-listed keys — `urlPattern`, `handler`, optionally `options`
with only `cacheName`, `expiration` (itself only `maxEntries`,
`maxAgeSeconds`) and `networkTimeoutSeconds` — and its handler is one of the
five allow-listed names; (b) a candidate that is not an object yields null;
(c) a candidate whose handler field is not (case-sensitively) one of the
five names yields null. -/
theorem sanitizeRule_allowlist :
    (∀ rule out, sanitizeRuntimeCachingRule rule = some out →
      objKeys out ⊆ [cs "urlPattern", cs "handler", cs "options"] ∧
      objKeys (getField out (cs "options")) ⊆
        [cs "cacheName", cs "expiration", cs "networkTimeoutSeconds"] ∧
      objKeys (getField (getField out (cs "options")) (cs "expiration")) ⊆
        [cs "maxEntries", cs "maxAgeSeconds"] ∧
      ∃ handler, getField out (cs "handler") = .jsString handler ∧
        handler ∈ ALLOWED_HANDLERS) ∧
    (∀ rule, (isJsNull rule = true ∨ jsTypeofIsObject rule = false) →
      sanitizeRuntimeCachingRule rule = none) ∧
    (∀ rule,
      (∀ handler, getField rule (cs "handler") = .jsString handler →
        handler ∉ ALLOWED_HANDLERS) →
      sanitizeRuntimeCachingRule rule = none) := by
  refine ⟨?_, ?_, ?_⟩
  · intro rule out h
    obtain ⟨up, handler, optPart, hout, hmem, hopt⟩ := sanitizeRule_shape rule out h
    subst hout
    have hOptField :
        getField (.object ([(cs "urlPattern", .jsString up),
          (cs "handler", .jsString handler)] ++ optPart)) (cs "options") =
        getField (.object optPart) (cs "options") := by
      apply getField_object_append
      intro hmem
      simp only [List.map_cons, List.map_nil, List.mem_cons,
        List.not_mem_nil, or_false] at hmem
      rcases hmem with hmem | hmem <;> exact absurd hmem (by decide)
    refine ⟨?_, ?_, ?_, ?_⟩
    · intro k hk
      simp only [objKeys, List.map_append, List.mem_append, List.map_cons,
        List.map_nil, List.mem_cons, List.not_mem_nil, or_false] at hk
      rcases hk with (hk | hk) | hk
      · simp [hk]
      · simp [hk]
      · rcases hopt with hnil | ⟨ov, hov⟩
        · subst hnil; simp at hk
        · subst hov
          simp only [List.map_cons, List.map_nil, List.mem_singleton] at hk
          simp [hk]
    · rw [hOptField]
      rcases hopt with hnil | ⟨ov, hov⟩
      · subst hnil
        intro k hk
        simp [objKeys, getField] at hk
      · subst hov
        rw [getField_cons_eq]
        exact sanitizeOptionsFields_keys ov
    · rw [hOptField]
      rcases hopt with hnil | ⟨ov, hov⟩
      · subst hnil
        intro k hk
        simp [objKeys, getField] at hk
      · subst hov
        rw [getField_cons_eq]
        rcases getField_options_expiration ov with hexp | hexp <;> rw [hexp]
        · intro k hk
          simp [objKeys] at hk
        · exact sanitizeExpirationFields_keys (getField ov (cs "expiration"))
    · refine ⟨handler, ?_, hmem⟩
      simp only [List.cons_append]
      rw [getField_cons_ne _ _ _ _ (by decide), getField_cons_eq]
  · intro rule h
    unfold sanitizeRuntimeCachingRule
    rw [if_pos h]
  · intro rule hforall
    unfold sanitizeRuntimeCachingRule
    split
    · rfl
    · cases hv : validateUrlPatternField (getField rule (cs "urlPattern"))
      · rfl
      · cases hh : getField rule (cs "handler")
        case jsString s => exact if_neg (hforall s hh)
        all_goals rfl

/-- A concrete candidate rule with one valid and one unknown option key. -/
def allowlistRule : JSValue :=
  .object [(cs "urlPattern", .jsString (cs "/test")),
           (cs "handler", .jsString (cs "CacheFirst")),
           (cs "options",
            .object [(cs "cacheName", .jsString (cs "my-cache")),
                     (cs "maliciousProp", .jsString (cs "evil"))])]

/-- The sanitizer's output for `allowlistRule`: the unknown key is gone. -/
def allowlistRuleOut : JSValue :=
  .object [(cs "urlPattern", .jsString (cs "/test")),
           (cs "handler", .jsString (cs "CacheFirst")),
           (cs "options",
            .object [(cs "cacheName", .jsString (cs "my-cache"))])]

/-- C5 witness: the allow-list theorem applied to a concrete candidate, and
the non-object clause applied to a number. -/
theorem sanitizeRule_allowlist_witness :
    (objKeys allowlistRuleOut ⊆ [cs "urlPattern", cs "handler", cs "options"] ∧
     ∃ handler, getField allowlistRuleOut (cs "handler") = .jsString handler ∧
       handler ∈ ALLOWED_HANDLERS) ∧
    sanitizeRuntimeCachingRule (.number 5) = none :=
  ⟨⟨(sanitizeRule_allowlist.1 allowlistRule allowlistRuleOut rfl).1,
    (sanitizeRule_allowlist.1 allowlistRule allowlistRuleOut rfl).2.2.2⟩,
   sanitizeRule_allowlist.2.1 (.number 5) (Or.inr rfl)⟩

-- =============================================================================
-- § PathGuard: sanitizePath (src/utils/security.ts)
-- =============================================================================

/-- The characters `String.prototype.trim` removes (ECMAScript WhiteSpace
and LineTerminator code points). -/
def isJsWhitespace (c : Char) : Bool :=
  c.toNat = 0x9 || c.toNat = 0xa || c.toNat = 0xb || c.toNat = 0xc ||
  c.toNat = 0xd || c.toNat = 0x20 || c.toNat = 0xa0 || c.toNat = 0x1680 ||
  (0x2000 ≤ c.toNat && c.toNat ≤ 0x200a) || c.toNat = 0x2028 ||
  c.toNat = 0x2029 || c.toNat = 0x202f || c.toNat = 0x205f ||
  c.toNat = 0x3000 || c.toNat = 0xfeff

/-- `path.trim()`. -/
def jsTrim (l : List Char) : List Char :=
  ((l.dropWhile isJsWhitespace).reverse.dropWhile isJsWhitespace).reverse

/-- `.replace(/\\/g, '/')`. -/
def backslashToSlash (l : List Char) : List Char :=
  l.map (fun c => if c = Char.ofNat 92 then Char.ofNat 47 else c)

/-- `.replace(/\0/g, '')`. -/
def stripNul (l : List Char) : List Char :=
  l.filter (fun c => c ≠ nulChar)

/-- `String.prototype.includes` for a fixed search string: does `pat` occur
contiguously in `l`? -/
def jsIncludes (pat : List Char) : List Char → Bool
  | [] => pat.isEmpty
  | c :: rest => pat.isPrefixOf (c :: rest) || jsIncludes pat rest

/-- `.replace(/\.\.(?:\/|$)/g, '')`: one left-to-right pass removing `../`
(three characters) or a final `..`; where no match starts, one character is
kept and scanning resumes after it, exactly as the regex engine does. -/
def stripDotDotSlash : List Char → List Char
  | '.' :: '.' :: '/' :: rest => stripDotDotSlash rest
  | ['.', '.'] => []
  | c :: rest => c :: stripDotDotSlash rest
  | [] => []

/-- The scanner for `.replace(/\.\/+/g, '')`.  The Boolean state records
whether the scan is inside the (maximal, greedy) slash run of a match, in
which case further slashes are consumed; when the run ends, scanning resumes
— possibly with a fresh `./` match — exactly as the regex engine resumes
after a match. -/
def stripDotSlashGo : Bool → List Char → List Char
  | _, [] => []
  | false, '.' :: '/' :: rest => stripDotSlashGo true rest
  | false, c :: rest => c :: stripDotSlashGo false rest
  | true, '/' :: rest => stripDotSlashGo true rest
  | true, '.' :: '/' :: rest => stripDotSlashGo true rest
  | true, c :: rest => c :: stripDotSlashGo false rest

/-- `.replace(/\.\/+/g, '')`. -/
def stripDotSlash (l : List Char) : List Char :=
  stripDotSlashGo false l

/-- The scanner for `.replace(/\/+/g, '/')`.  The Boolean state records
whether the scan is inside a slash run whose first slash has already been
emitted; the remaining slashes of the run are dropped. -/
def collapseSlashesGo : Bool → List Char → List Char
  | _, [] => []
  | false, '/' :: rest => '/' :: collapseSlashesGo true rest
  | false, c :: rest => c :: collapseSlashesGo false rest
  | true, '/' :: rest => collapseSlashesGo true rest
  | true, c :: rest => c :: collapseSlashesGo false rest

/-- `.replace(/\/+/g, '/')`: collapse each maximal run of slashes to one. -/
def collapseSlashes (l : List Char) : List Char :=
  collapseSlashesGo false l

/-- `.replace(/^\/+/, '')`. -/
def stripLeadingSlashes (l : List Char) : List Char :=
  l.dropWhile (· = '/')

/-- `.replace(/\/+$/, '')`. -/
def stripTrailingSlashes (l : List Char) : List Char :=
  (l.reverse.dropWhile (· = '/')).reverse

/-- One `replace(/\.\./g, '')` pass: every (non-overlapping, left-to-right)
occurrence of `..` is removed. -/
def stripAllDotDot : List Char → List Char
  | '.' :: '.' :: rest => stripAllDotDot rest
  | c :: rest => c :: stripAllDotDot rest
  | [] => []

/-- One `stripAllDotDot` pass never lengthens the string. -/
lemma stripAllDotDot_length_le (l : List Char) :
    (stripAllDotDot l).length ≤ l.length := by
  induction l using stripAllDotDot.induct with
  | case1 rest ih => simp only [stripAllDotDot, List.length_cons]; omega
  | case2 c rest hne ih => simp only [stripAllDotDot, List.length_cons]; omega
  | case3 => simp [stripAllDotDot]

/-- The fuelled `while (sanitized.includes('..'))` loop; each iteration
strictly shortens the string, so `length + 1` units of fuel always reach the
fixed point. -/
def whileStripAux : Nat → List Char → List Char
  | 0, l => l
  | fuel + 1, l =>
    if jsIncludes (cs "..") l then whileStripAux fuel (stripAllDotDot l) else l

/-- `while (sanitized.includes('..')) sanitized = sanitized.replace(/\.\./g, '')`. -/
def whileStripDotDot (l : List Char) : List Char :=
  whileStripAux (l.length + 1) l

/-- `sanitizePath` from `src/utils/security.ts`: trim, normalize `\` to `/`,
strip NUL bytes, strip `../` sequences, strip `./` runs, collapse repeated
slashes, strip leading slashes; then repeatedly strip residual `..`; then a
final cleanup of repeated, leading and trailing slashes.  (The non-string
early return is outside the model: inputs are strings.) -/
def sanitizePath (path : List Char) : List Char :=
  let sanitized :=
    stripLeadingSlashes (collapseSlashes (stripDotSlash (stripDotDotSlash
      (stripNul (backslashToSlash (jsTrim path))))))
  let sanitized := whileStripDotDot sanitized
  stripTrailingSlashes (stripLeadingSlashes (collapseSlashes sanitized))

-- =============================================================================
-- § Theorem for C3: sanitizePath idempotence
-- =============================================================================

/-- `jsIncludes` agrees with contiguous-substring containment. -/
lemma jsIncludes_iff (pat l : List Char) :
    jsIncludes pat l = true ↔ pat <:+: l := by
  induction l with
  | nil => simp [jsIncludes, List.isEmpty_iff]
  | cons c rest ih =>
    simp only [jsIncludes, Bool.or_eq_true, List.isPrefixOf_iff_prefix, ih,
      List.infix_cons_iff]

/-- Substring absence transfers down to any suffix. -/
lemma not_infix_of_suffix {pat l l' : List Char} (hs : l' <:+ l)
    (h : ¬ pat <:+: l) : ¬ pat <:+: l' :=
  fun hp => h (hp.trans hs.isInfix)

/-- Substring absence transfers down to any prefix. -/
lemma not_infix_of_prefix {pat l l' : List Char} (hs : l' <+: l)
    (h : ¬ pat <:+: l) : ¬ pat <:+: l' :=
  fun hp => h (hp.trans hs.isInfix)

/-- Substring absence in `c :: l` gives substring absence in `l`. -/
lemma not_infix_of_cons {pat : List Char} {c : Char} {l : List Char}
    (h : ¬ pat <:+: c :: l) : ¬ pat <:+: l :=
  not_infix_of_suffix (List.suffix_cons c l) h

/-- A two-character pattern is absent from `c :: l` exactly when it is not
the head pair and absent from `l`. -/
lemma not_infix_pair_cons {a b c : Char} {l : List Char}
    (h : ¬ [a, b] <:+: c :: l) :
    ¬ (c = a ∧ l.head? = some b) ∧ ¬ [a, b] <:+: l := by
  refine ⟨?_, not_infix_of_cons h⟩
  rintro ⟨rfl, hb⟩
  cases l with
  | nil => simp at hb
  | cons d r =>
    simp only [List.head?_cons, Option.some.injEq] at hb
    subst hb
    exact h ⟨[], r, rfl⟩

/-- The head of a `dropWhile` result never satisfies the predicate. -/
lemma head_dropWhile_not (p : Char → Bool) (l : List Char) (a : Char)
    (h : (l.dropWhile p).head? = some a) : p a = false := by
  induction l with
  | nil => simp [List.dropWhile] at h
  | cons c rest ih =>
    rw [List.dropWhile_cons] at h
    by_cases hp : p c
    · rw [if_pos hp] at h
      exact ih h
    · rw [if_neg hp] at h
      simp only [List.head?_cons, Option.some.injEq] at h
      subst h
      simpa using hp

/-- `dropWhile` is the identity when the head does not satisfy `p`. -/
lemma dropWhile_eq_self_of_head (p : Char → Bool) (l : List Char)
    (h : ∀ a, l.head? = some a → p a = false) : l.dropWhile p = l := by
  cases l with
  | nil => rfl
  | cons c rest =>
    rw [List.dropWhile_cons, if_neg]
    simp [h c rfl]

/-- `trim` is the identity on whitespace-free strings. -/
lemma jsTrim_eq_self (l : List Char)
    (h : ∀ c ∈ l, isJsWhitespace c = false) : jsTrim l = l := by
  unfold jsTrim
  rw [dropWhile_eq_self_of_head _ _ (fun a ha => h a (List.mem_of_mem_head? ha)),
    dropWhile_eq_self_of_head _ _ (fun a ha =>
      h a (List.mem_reverse.mp (List.mem_of_mem_head? ha))),
    List.reverse_reverse]

/-- A map that fixes every element is the identity. -/
lemma map_eq_self_of (f : Char → Char) (l : List Char)
    (h : ∀ c ∈ l, f c = c) : l.map f = l := by
  induction l with
  | nil => rfl
  | cons c rest ih =>
    simp only [List.map_cons, h c (List.mem_cons_self c rest),
      ih (fun a ha => h a (List.mem_cons_of_mem c ha))]

/-- Backslash normalization is the identity on backslash-free strings. -/
lemma backslashToSlash_eq_self (l : List Char) (h : Char.ofNat 92 ∉ l) :
    backslashToSlash l = l := by
  apply map_eq_self_of
  intro c hc
  rw [if_neg]
  intro hEq
  exact h (hEq ▸ hc)

/-- NUL stripping is the identity on NUL-free strings. -/
lemma stripNul_eq_self (l : List Char) (h : nulChar ∉ l) :
    stripNul l = l := by
  apply List.filter_eq_self.mpr
  intro c hc
  simp only [ne_eq, decide_eq_true_eq]
  intro hEq
  exact h (hEq ▸ hc)

/-- `../`-stripping is the identity when `..` does not occur. -/
lemma stripDotDotSlash_eq_self (l : List Char) (h : ¬ ['.', '.'] <:+: l) :
    stripDotDotSlash l = l := by
  induction l using stripDotDotSlash.induct with
  | case1 rest => exact absurd ⟨[], '/' :: rest, rfl⟩ h
  | case2 => exact absurd ⟨[], [], rfl⟩ h
  | case3 c rest hne hne2 ih =>
    rw [stripDotDotSlash.eq_3 c rest hne hne2, ih (not_infix_of_cons h)]
  | case4 => rfl

/-- `./`-run stripping is the identity when `./` does not occur. -/
lemma stripDotSlash_eq_self (l : List Char) (h : ¬ ['.', '/'] <:+: l) :
    stripDotSlashGo false l = l := by
  induction l with
  | nil => rfl
  | cons c rest ih =>
    rw [stripDotSlashGo.eq_3 c rest, ih (not_infix_of_cons h)]
    intro r1 h1 h2
    exact h ⟨[], r1, by rw [h1, h2]; simp⟩

/-- Slash collapsing is the identity when `//` does not occur (in the run
state this additionally needs a non-slash head). -/
lemma collapseSlashesGo_eq_self (l : List Char) (h : ¬ ['/', '/'] <:+: l) :
    collapseSlashesGo false l = l ∧
    (l.head? ≠ some '/' → collapseSlashesGo true l = l) := by
  induction l with
  | nil => exact ⟨rfl, fun _ => rfl⟩
  | cons c rest ih =>
    obtain ⟨ihf, iht⟩ := ih (not_infix_of_cons h)
    constructor
    · by_cases hc : c = '/'
      · subst hc
        rw [collapseSlashesGo.eq_2, iht]
        intro hhead
        cases rest with
        | nil => simp at hhead
        | cons d r =>
          simp only [List.head?_cons, Option.some.injEq] at hhead
          exact h ⟨[], r, by rw [hhead]; simp⟩
      · rw [collapseSlashesGo.eq_3 c rest (fun hcc => hc hcc), ihf]
    · intro hhead
      simp only [List.head?_cons, ne_eq, Option.some.injEq] at hhead
      rw [collapseSlashesGo.eq_5 c rest (fun hcc => hhead hcc), ihf]

/-- Leading-slash stripping is the identity when the head is not a slash. -/
lemma stripLeadingSlashes_eq_self (l : List Char) (h : l.head? ≠ some '/') :
    stripLeadingSlashes l = l := by
  apply dropWhile_eq_self_of_head
  intro a ha
  simp only [decide_eq_false_iff_not]
  intro hEq
  exact h (hEq ▸ ha)

/-- Trailing-slash stripping is the identity when the last character is not
a slash. -/
lemma stripTrailingSlashes_eq_self (l : List Char) (h : l.getLast? ≠ some '/') :
    stripTrailingSlashes l = l := by
  unfold stripTrailingSlashes
  rw [dropWhile_eq_self_of_head _ _ (fun a ha => by
    rw [List.head?_reverse] at ha
    simp only [decide_eq_false_iff_not]
    intro hEq
    exact h (hEq ▸ ha)), List.reverse_reverse]

/-- The `..`-stripping loop is the identity when `..` does not occur. -/
lemma whileStripDotDot_eq_self (l : List Char) (h : ¬ ['.', '.'] <:+: l) :
    whileStripDotDot l = l := by
  unfold whileStripDotDot
  simp only [whileStripAux]
  rw [if_neg]
  simp only [jsIncludes_iff, show cs ".." = ['.', '.'] from rfl]
  exact h

/-- Building a two-character absence from the head condition and the tail. -/
lemma not_infix_pair_cons_intro {a b c : Char} {l : List Char}
    (h1 : ¬ (c = a ∧ l.head? = some b)) (h2 : ¬ [a, b] <:+: l) :
    ¬ [a, b] <:+: c :: l := by
  intro hinf
  rcases List.infix_cons_iff.mp hinf with hpre | hinf2
  · rcases hpre with ⟨t, ht⟩
    simp only [List.cons_append, List.nil_append, List.cons.injEq] at ht
    exact h1 ⟨ht.1.symm, by rw [← ht.2]; rfl⟩
  · exact h2 hinf2

/-- Characters of `jsTrim l` come from `l`. -/
lemma mem_jsTrim {c : Char} {l : List Char} (h : c ∈ jsTrim l) : c ∈ l := by
  unfold jsTrim at h
  rw [List.mem_reverse] at h
  have h2 := (List.dropWhile_sublist _).mem h
  rw [List.mem_reverse] at h2
  exact (List.dropWhile_sublist _).mem h2

/-- Characters of `backslashToSlash l` are slashes or come from `l`. -/
lemma mem_backslashToSlash {c : Char} {l : List Char}
    (h : c ∈ backslashToSlash l) : c = Char.ofNat 47 ∨ c ∈ l := by
  rcases List.mem_map.mp h with ⟨a, ha, hEq⟩
  by_cases hb : a = Char.ofNat 92
  · left; rw [← hEq, if_pos hb]
  · right; rw [← hEq, if_neg hb]; exact ha

/-- `backslashToSlash` never outputs a backslash. -/
lemma backslashToSlash_no_backslash (l : List Char) :
    Char.ofNat 92 ∉ backslashToSlash l := by
  intro h
  rcases List.mem_map.mp h with ⟨a, _, hEq⟩
  by_cases hb : a = Char.ofNat 92
  · rw [if_pos hb] at hEq
    exact absurd hEq (by decide)
  · rw [if_neg hb] at hEq
    exact hb hEq

/-- `stripNul` never outputs NUL. -/
lemma stripNul_no_nul (l : List Char) : nulChar ∉ stripNul l := by
  intro h
  have := List.of_mem_filter h
  simp at this

/-- Characters of `stripNul l` come from `l`. -/
lemma mem_stripNul {c : Char} {l : List Char} (h : c ∈ stripNul l) : c ∈ l :=
  List.mem_of_mem_filter h

/-- Characters of `stripDotDotSlash l` come from `l`. -/
lemma mem_stripDotDotSlash {c : Char} {l : List Char}
    (h : c ∈ stripDotDotSlash l) : c ∈ l := by
  induction l using stripDotDotSlash.induct with
  | case1 rest ih =>
    simp only [stripDotDotSlash] at h
    simp [ih h]
  | case2 => simp [stripDotDotSlash] at h
  | case3 a rest hne hne2 ih =>
    rw [stripDotDotSlash.eq_3 a rest hne hne2] at h
    rcases List.mem_cons.mp h with hEq | hmem
    · simp [hEq]
    · simp [ih hmem]
  | case4 => simp [stripDotDotSlash] at h

/-- Characters of `stripDotSlashGo st l` come from `l`. -/
lemma mem_stripDotSlashGo {c : Char} {st : Bool} {l : List Char}
    (h : c ∈ stripDotSlashGo st l) : c ∈ l := by
  induction st, l using stripDotSlashGo.induct with
  | case1 st => simp [stripDotSlashGo] at h
  | case2 rest ih =>
    rw [stripDotSlashGo.eq_2] at h
    simp [ih h]
  | case3 a rest hne ih =>
    rw [stripDotSlashGo.eq_3 a rest hne] at h
    rcases List.mem_cons.mp h with hEq | hmem
    · simp [hEq]
    · simp [ih hmem]
  | case4 rest ih =>
    rw [stripDotSlashGo.eq_4] at h
    simp [ih h]
  | case5 rest ih =>
    rw [stripDotSlashGo.eq_5] at h
    simp [ih h]
  | case6 a rest hs hne ih =>
    rw [stripDotSlashGo.eq_6 a rest hs hne] at h
    rcases List.mem_cons.mp h with hEq | hmem
    · simp [hEq]
    · simp [ih hmem]

/-- Characters of `collapseSlashesGo st l` come from `l`. -/
lemma mem_collapseSlashesGo {c : Char} {st : Bool} {l : List Char}
    (h : c ∈ collapseSlashesGo st l) : c ∈ l := by
  induction st, l using collapseSlashesGo.induct with
  | case1 st => simp [collapseSlashesGo] at h
  | case2 rest ih =>
    rw [collapseSlashesGo.eq_2] at h
    rcases List.mem_cons.mp h with hEq | hmem
    · simp [hEq]
    · simp [ih hmem]
  | case3 a rest hs ih =>
    rw [collapseSlashesGo.eq_3 a rest hs] at h
    rcases List.mem_cons.mp h with hEq | hmem
    · simp [hEq]
    · simp [ih hmem]
  | case4 rest ih =>
    rw [collapseSlashesGo.eq_4] at h
    simp [ih h]
  | case5 a rest hs ih =>
    rw [collapseSlashesGo.eq_5 a rest hs] at h
    rcases List.mem_cons.mp h with hEq | hmem
    · simp [hEq]
    · simp [ih hmem]

/-- Characters of `stripAllDotDot l` come from `l`. -/
lemma mem_stripAllDotDot {c : Char} {l : List Char}
    (h : c ∈ stripAllDotDot l) : c ∈ l := by
  induction l using stripAllDotDot.induct with
  | case1 rest ih =>
    simp only [stripAllDotDot] at h
    simp [ih h]
  | case2 a rest hne ih =>
    rw [stripAllDotDot.eq_2 a rest hne] at h
    rcases List.mem_cons.mp h with hEq | hmem
    · simp [hEq]
    · simp [ih hmem]
  | case3 => simp [stripAllDotDot] at h

/-- Characters of `whileStripAux fuel l` come from `l`. -/
lemma mem_whileStripAux {c : Char} {l : List Char} (fuel : Nat)
    (h : c ∈ whileStripAux fuel l) : c ∈ l := by
  induction fuel generalizing l with
  | zero => exact h
  | succ fuel ih =>
    simp only [whileStripAux] at h
    split at h
    · exact mem_stripAllDotDot (ih h)
    · exact h

/-- `stripTrailingSlashes l` is a prefix of `l`. -/
lemma stripTrailingSlashes_prefix (l : List Char) :
    stripTrailingSlashes l <+: l := by
  unfold stripTrailingSlashes
  have h := List.dropWhile_suffix (l := l.reverse) (p := (· = '/'))
  have h2 := List.reverse_prefix.mpr h
  rwa [List.reverse_reverse] at h2

/-- A prefix has the same head (or none). -/
lemma head_of_prefix {l1 l2 : List Char} (h : l1 <+: l2) :
    l1.head? = none ∨ l1.head? = l2.head? := by
  cases l1 with
  | nil => exact Or.inl rfl
  | cons c rest =>
    rcases h with ⟨t, ht⟩
    rw [← ht]
    exact Or.inr rfl

/-- Head behavior of the `./`-scanner: in the slash-run state it never
emits a leading slash; in the scan state a leading slash in the output
comes from a leading slash in the input. -/
lemma stripDotSlashGo_head (st : Bool) (l : List Char) :
    ∀ a, (stripDotSlashGo st l).head? = some a →
      (st = true → a ≠ '/') ∧ (a = '/' → l.head? = some '/') := by
  induction st, l using stripDotSlashGo.induct with
  | case1 st =>
    intro a ha
    simp [stripDotSlashGo] at ha
  | case2 rest ih =>
    intro a ha
    rw [stripDotSlashGo.eq_2] at ha
    exact ⟨fun hst => by simp at hst, fun ha' => absurd ha' ((ih a ha).1 rfl)⟩
  | case3 c rest hne ih =>
    intro a ha
    rw [stripDotSlashGo.eq_3 c rest hne] at ha
    simp only [List.head?_cons, Option.some.injEq] at ha
    subst ha
    exact ⟨fun hst => by simp at hst, fun ha' => by rw [List.head?_cons, ha']⟩
  | case4 rest ih =>
    intro a ha
    rw [stripDotSlashGo.eq_4] at ha
    exact ⟨fun _ => (ih a ha).1 rfl, fun _ => rfl⟩
  | case5 rest ih =>
    intro a ha
    rw [stripDotSlashGo.eq_5] at ha
    exact ⟨fun _ => (ih a ha).1 rfl, fun ha' => absurd ha' ((ih a ha).1 rfl)⟩
  | case6 c rest hs hne ih =>
    intro a ha
    rw [stripDotSlashGo.eq_6 c rest hs hne] at ha
    simp only [List.head?_cons, Option.some.injEq] at ha
    subst ha
    exact ⟨fun _ hEq => hs hEq, fun ha' => absurd ha' hs⟩

/-- The scan-state slash collapser preserves the head. -/
lemma collapseSlashesGo_false_head (l : List Char) :
    (collapseSlashesGo false l).head? = l.head? := by
  cases l with
  | nil => rfl
  | cons c rest =>
    by_cases hc : c = '/'
    · subst hc
      rw [collapseSlashesGo.eq_2]
      rfl
    · rw [collapseSlashesGo.eq_3 c rest (fun h => hc h)]
      rfl

/-- The run-state slash collapser never emits a leading slash. -/
lemma collapseSlashesGo_true_head (l : List Char) :
    ∀ a, (collapseSlashesGo true l).head? = some a → a ≠ '/' := by
  induction l with
  | nil =>
    intro a ha
    simp [collapseSlashesGo] at ha
  | cons c rest ih =>
    intro a ha
    by_cases hc : c = '/'
    · subst hc
      rw [collapseSlashesGo.eq_4] at ha
      exact ih a ha
    · rw [collapseSlashesGo.eq_5 c rest (fun h => hc h)] at ha
      simp only [List.head?_cons, Option.some.injEq] at ha
      subst ha
      exact fun hEq => hc hEq

/-- The output of the `./`-scanner never contains `./`. -/
lemma stripDotSlashGo_no_dotslash (st : Bool) (l : List Char) :
    ¬ ['.', '/'] <:+: stripDotSlashGo st l := by
  induction st, l using stripDotSlashGo.induct with
  | case1 st => simp [stripDotSlashGo]
  | case2 rest ih => rw [stripDotSlashGo.eq_2]; exact ih
  | case3 c rest hne ih =>
    rw [stripDotSlashGo.eq_3 c rest hne]
    refine not_infix_pair_cons_intro ?_ ih
    rintro ⟨rfl, hhead⟩
    rcases (stripDotSlashGo_head false rest '/' hhead).2 rfl with hr
    cases rest with
    | nil => simp at hr
    | cons d r =>
      simp only [List.head?_cons, Option.some.injEq] at hr
      exact hne r rfl (by rw [hr])
  | case4 rest ih => rw [stripDotSlashGo.eq_4]; exact ih
  | case5 rest ih => rw [stripDotSlashGo.eq_5]; exact ih
  | case6 c rest hs hne ih =>
    rw [stripDotSlashGo.eq_6 c rest hs hne]
    refine not_infix_pair_cons_intro ?_ ih
    rintro ⟨rfl, hhead⟩
    rcases (stripDotSlashGo_head false rest '/' hhead).2 rfl with hr
    cases rest with
    | nil => simp at hr
    | cons d r =>
      simp only [List.head?_cons, Option.some.injEq] at hr
      exact hne r rfl (by rw [hr])

/-- The output of the slash collapser never contains `//`. -/
lemma collapseSlashesGo_no_slashslash (st : Bool) (l : List Char) :
    ¬ ['/', '/'] <:+: collapseSlashesGo st l := by
  induction st, l using collapseSlashesGo.induct with
  | case1 st => simp [collapseSlashesGo]
  | case2 rest ih =>
    rw [collapseSlashesGo.eq_2]
    refine not_infix_pair_cons_intro ?_ ih
    rintro ⟨-, hhead⟩
    exact collapseSlashesGo_true_head rest '/' hhead rfl
  | case3 c rest hs ih =>
    rw [collapseSlashesGo.eq_3 c rest hs]
    refine not_infix_pair_cons_intro ?_ ih
    rintro ⟨rfl, -⟩
    exact hs rfl
  | case4 rest ih => rw [collapseSlashesGo.eq_4]; exact ih
  | case5 c rest hs ih =>
    rw [collapseSlashesGo.eq_5 c rest hs]
    refine not_infix_pair_cons_intro ?_ ih
    rintro ⟨rfl, -⟩
    exact hs rfl

/-- The slash collapser cannot create a `..` occurrence. -/
lemma collapseSlashesGo_not_dotdot (st : Bool) (l : List Char)
    (h : ¬ ['.', '.'] <:+: l) : ¬ ['.', '.'] <:+: collapseSlashesGo st l := by
  induction st, l using collapseSlashesGo.induct with
  | case1 st => simp [collapseSlashesGo]
  | case2 rest ih =>
    rw [collapseSlashesGo.eq_2]
    refine not_infix_pair_cons_intro ?_ (ih (not_infix_of_cons h))
    rintro ⟨hEq, -⟩
    exact absurd hEq (by decide)
  | case3 c rest hs ih =>
    rw [collapseSlashesGo.eq_3 c rest hs]
    refine not_infix_pair_cons_intro ?_ (ih (not_infix_of_cons h))
    rintro ⟨rfl, hhead⟩
    rw [collapseSlashesGo_false_head rest] at hhead
    exact (not_infix_pair_cons h).1 ⟨rfl, hhead⟩
  | case4 rest ih => rw [collapseSlashesGo.eq_4]; exact ih (not_infix_of_cons h)
  | case5 c rest hs ih =>
    rw [collapseSlashesGo.eq_5 c rest hs]
    refine not_infix_pair_cons_intro ?_ (ih (not_infix_of_cons h))
    rintro ⟨rfl, hhead⟩
    rw [collapseSlashesGo_false_head rest] at hhead
    exact (not_infix_pair_cons h).1 ⟨rfl, hhead⟩

/-- The slash collapser cannot create a `./` occurrence. -/
lemma collapseSlashesGo_not_dotslash (st : Bool) (l : List Char)
    (h : ¬ ['.', '/'] <:+: l) : ¬ ['.', '/'] <:+: collapseSlashesGo st l := by
  induction st, l using collapseSlashesGo.induct with
  | case1 st => simp [collapseSlashesGo]
  | case2 rest ih =>
    rw [collapseSlashesGo.eq_2]
    refine not_infix_pair_cons_intro ?_ (ih (not_infix_of_cons h))
    rintro ⟨hEq, -⟩
    exact absurd hEq (by decide)
  | case3 c rest hs ih =>
    rw [collapseSlashesGo.eq_3 c rest hs]
    refine not_infix_pair_cons_intro ?_ (ih (not_infix_of_cons h))
    rintro ⟨rfl, hhead⟩
    rw [collapseSlashesGo_false_head rest] at hhead
    exact (not_infix_pair_cons h).1 ⟨rfl, hhead⟩
  | case4 rest ih => rw [collapseSlashesGo.eq_4]; exact ih (not_infix_of_cons h)
  | case5 c rest hs ih =>
    rw [collapseSlashesGo.eq_5 c rest hs]
    refine not_infix_pair_cons_intro ?_ (ih (not_infix_of_cons h))
    rintro ⟨rfl, hhead⟩
    rw [collapseSlashesGo_false_head rest] at hhead
    exact (not_infix_pair_cons h).1 ⟨rfl, hhead⟩

/-- A `..`-removal pass keeps a non-slash head non-slash, provided `./`
does not occur. -/
lemma stripAllDotDot_head (l : List Char) (hds : ¬ ['.', '/'] <:+: l)
    (hhead : l.head? ≠ some '/') :
    (stripAllDotDot l).head? ≠ some '/' := by
  induction l using stripAllDotDot.induct with
  | case1 rest ih =>
    simp only [stripAllDotDot]
    refine ih (not_infix_of_cons (not_infix_of_cons hds)) ?_
    intro hr
    cases rest with
    | nil => simp at hr
    | cons d r =>
      simp only [List.head?_cons, Option.some.injEq] at hr
      exact (not_infix_pair_cons (not_infix_of_cons hds)).1 ⟨rfl, by simp [hr]⟩
  | case2 c rest hne ih =>
    rw [stripAllDotDot.eq_2 c rest hne]
    simpa using hhead
  | case3 => simp [stripAllDotDot]

/-- A `..`-removal pass cannot create a `./` occurrence. -/
lemma stripAllDotDot_not_dotslash (l : List Char)
    (h : ¬ ['.', '/'] <:+: l) : ¬ ['.', '/'] <:+: stripAllDotDot l := by
  induction l using stripAllDotDot.induct with
  | case1 rest ih =>
    simp only [stripAllDotDot]
    exact ih (not_infix_of_cons (not_infix_of_cons h))
  | case2 c rest hne ih =>
    rw [stripAllDotDot.eq_2 c rest hne]
    refine not_infix_pair_cons_intro ?_ (ih (not_infix_of_cons h))
    rintro ⟨rfl, hhead⟩
    have hr : rest.head? ≠ some '/' := by
      intro hr
      exact (not_infix_pair_cons h).1 ⟨rfl, hr⟩
    exact hr (by
      have := stripAllDotDot_head rest (not_infix_of_cons h) hr
      exact absurd hhead this)
  | case3 => simp [stripAllDotDot]

/-- The `..`-stripping loop preserves `./`-absence and a non-slash head. -/
lemma whileStripAux_invariants (fuel : Nat) (l : List Char)
    (h : ¬ ['.', '/'] <:+: l) :
    ¬ ['.', '/'] <:+: whileStripAux fuel l ∧
    (l.head? ≠ some '/' → (whileStripAux fuel l).head? ≠ some '/') := by
  induction fuel generalizing l with
  | zero => exact ⟨h, fun hh => hh⟩
  | succ fuel ih =>
    simp only [whileStripAux]
    split
    · obtain ⟨ih1, ih2⟩ := ih (stripAllDotDot l) (stripAllDotDot_not_dotslash l h)
      exact ⟨ih1, fun hh => ih2 (stripAllDotDot_head l h hh)⟩
    · exact ⟨h, fun hh => hh⟩

/-- While `..` is still present a `stripAllDotDot` pass removes at least
one occurrence, so the string gets strictly shorter. -/
lemma stripAllDotDot_length_lt (l : List Char)
    (h : (cs "..") <:+: l) : (stripAllDotDot l).length < l.length := by
  rw [show cs ".." = ['.', '.'] from rfl] at h
  induction l using stripAllDotDot.induct with
  | case1 rest ih =>
    have := stripAllDotDot_length_le rest
    simp only [stripAllDotDot, List.length_cons]
    omega
  | case2 c rest hne ih =>
    rw [stripAllDotDot.eq_2 c rest hne]
    simp only [List.length_cons]
    rcases List.infix_cons_iff.mp h with hpre | hinf
    · exfalso
      rcases hpre with ⟨t, ht⟩
      simp only [List.cons_append, List.nil_append, List.cons.injEq] at ht
      exact hne t ht.1.symm ht.2.symm
    · exact Nat.succ_lt_succ (ih hinf)
  | case3 => simp at h

/-- With enough fuel the `..`-stripping loop reaches a `..`-free string. -/
lemma whileStripAux_no_dotdot (fuel : Nat) (l : List Char)
    (hfuel : l.length < fuel) :
    ¬ ['.', '.'] <:+: whileStripAux fuel l := by
  induction fuel generalizing l with
  | zero => omega
  | succ fuel ih =>
    simp only [whileStripAux]
    split
    case isTrue hcond =>
      have hinf : (cs "..") <:+: l := by
        rw [← jsIncludes_iff]
        exact hcond
      have hlt := stripAllDotDot_length_lt l hinf
      exact ih (stripAllDotDot l) (by omega)
    case isFalse hcond =>
      intro hinf
      exact hcond (by
        rw [jsIncludes_iff, show cs ".." = ['.', '.'] from rfl]
        exact hinf)

/-- The invariants every `sanitizePath` output of a whitespace-free input
satisfies: no whitespace, backslash or NUL; no `..`, `./` or `//`
substring; no leading or trailing slash. -/
def CleanPath (l : List Char) : Prop :=
  (∀ c ∈ l, isJsWhitespace c = false) ∧ Char.ofNat 92 ∉ l ∧ nulChar ∉ l ∧
  ¬ ['.', '.'] <:+: l ∧ ¬ ['.', '/'] <:+: l ∧ ¬ ['/', '/'] <:+: l ∧
  l.head? ≠ some '/' ∧ l.getLast? ≠ some '/'

/-- `sanitizePath` fixes every clean string: every pass is the identity. -/
lemma sanitizePath_eq_self_of_clean (l : List Char) (h : CleanPath l) :
    sanitizePath l = l := by
  obtain ⟨hws, hbs, hnul, hdd, hds, hss, hhead, hlast⟩ := h
  simp only [sanitizePath]
  rw [jsTrim_eq_self l hws, backslashToSlash_eq_self l hbs,
    stripNul_eq_self l hnul, stripDotDotSlash_eq_self l hdd,
    show stripDotSlash l = l from stripDotSlash_eq_self l hds,
    show collapseSlashes l = l from (collapseSlashesGo_eq_self l hss).1,
    stripLeadingSlashes_eq_self l hhead, whileStripDotDot_eq_self l hdd,
    show collapseSlashes l = l from (collapseSlashesGo_eq_self l hss).1,
    stripLeadingSlashes_eq_self l hhead]
  exact stripTrailingSlashes_eq_self l hlast

/-- On whitespace-free input, `sanitizePath` output is clean. -/
lemma sanitizePath_clean (x : List Char)
    (hws : ∀ c ∈ x, isJsWhitespace c = false) : CleanPath (sanitizePath x) := by
  simp only [sanitizePath]
  set e := stripDotSlash (stripDotDotSlash (stripNul (backslashToSlash (jsTrim x)))) with he
  set f := collapseSlashes e with hf
  set g := stripLeadingSlashes f with hg
  set w := whileStripDotDot g with hw
  set f2 := collapseSlashes w with hf2
  set g2 := stripLeadingSlashes f2 with hg2
  have hdsE : ¬ ['.', '/'] <:+: e := stripDotSlashGo_no_dotslash false _
  have hdsF : ¬ ['.', '/'] <:+: f := collapseSlashesGo_not_dotslash false e hdsE
  have hdsG : ¬ ['.', '/'] <:+: g :=
    not_infix_of_suffix (List.dropWhile_suffix _) hdsF
  have hwInv := whileStripAux_invariants (g.length + 1) g hdsG
  have hdsW : ¬ ['.', '/'] <:+: w := hwInv.1
  have hddW : ¬ ['.', '.'] <:+: w :=
    whileStripAux_no_dotdot (g.length + 1) g (Nat.lt_succ_self _)
  have hddF2 : ¬ ['.', '.'] <:+: f2 := collapseSlashesGo_not_dotdot false w hddW
  have hdsF2 : ¬ ['.', '/'] <:+: f2 := collapseSlashesGo_not_dotslash false w hdsW
  have hssF2 : ¬ ['/', '/'] <:+: f2 := collapseSlashesGo_no_slashslash false w
  have hddG2 : ¬ ['.', '.'] <:+: g2 :=
    not_infix_of_suffix (List.dropWhile_suffix _) hddF2
  have hdsG2 : ¬ ['.', '/'] <:+: g2 :=
    not_infix_of_suffix (List.dropWhile_suffix _) hdsF2
  have hssG2 : ¬ ['/', '/'] <:+: g2 :=
    not_infix_of_suffix (List.dropWhile_suffix _) hssF2
  have hpre := stripTrailingSlashes_prefix g2
  have hheadG2 : g2.head? ≠ some '/' := by
    intro hh
    have := head_dropWhile_not _ f2 '/' hh
    simp at this
  have hchain : ∀ c, c ∈ stripTrailingSlashes g2 →
      c ∈ stripNul (backslashToSlash (jsTrim x)) := by
    intro c hc
    have h1 : c ∈ g2 := hpre.sublist.mem hc
    have h2 : c ∈ f2 := (List.dropWhile_sublist _).mem h1
    have h3 : c ∈ w := mem_collapseSlashesGo h2
    have h4 : c ∈ g := mem_whileStripAux (g.length + 1) h3
    have h5 : c ∈ f := (List.dropWhile_sublist _).mem h4
    have h6 : c ∈ e := mem_collapseSlashesGo h5
    have h7 := mem_stripDotSlashGo h6
    exact mem_stripDotDotSlash h7
  refine ⟨?_, ?_, ?_, ?_, ?_, ?_, ?_, ?_⟩
  · intro c hc
    have hb := mem_stripNul (hchain c hc)
    rcases mem_backslashToSlash hb with hEq | hmem
    · rw [hEq]; decide
    · exact hws c (mem_jsTrim hmem)
  · intro hmem
    exact backslashToSlash_no_backslash (jsTrim x)
      (mem_stripNul (hchain _ hmem))
  · intro hmem
    exact stripNul_no_nul (backslashToSlash (jsTrim x)) (hchain _ hmem)
  · exact not_infix_of_prefix hpre hddG2
  · exact not_infix_of_prefix hpre hdsG2
  · exact not_infix_of_prefix hpre hssG2
  · rcases head_of_prefix hpre with h0 | hEq
    · rw [h0]; simp
    · rw [hEq]; exact hheadG2
  · intro hlast
    have hEq : (stripTrailingSlashes g2).getLast? =
        (g2.reverse.dropWhile (· = '/')).head? := by
      unfold stripTrailingSlashes
      rw [List.getLast?_reverse]
    rw [hEq] at hlast
    have := head_dropWhile_not _ (g2.reverse) '/' hlast
    simp at this

/-- C3 counterexample: `sanitizePath` is not idempotent on `"/ a"` — the
first application strips the leading slash and exposes a leading space,
which only the second application trims away. -/
theorem sanitizePath_not_idempotent :
    sanitizePath (sanitizePath (cs "/ a")) ≠ sanitizePath (cs "/ a") := by
  decide

/-- C3 (amended): `sanitizePath` is idempotent on every input containing no
whitespace characters. -/
theorem sanitizePath_idempotent_of_no_whitespace (x : List Char)
    (hws : ∀ c ∈ x, isJsWhitespace c = false) :
    sanitizePath (sanitizePath x) = sanitizePath x :=
  sanitizePath_eq_self_of_clean (sanitizePath x) (sanitizePath_clean x hws)

/-- C3 witness: the amended idempotence theorem at a concrete input. -/
theorem sanitizePath_idempotent_witness :
    (∀ c ∈ cs "foo/../bar//", isJsWhitespace c = false) ∧
    sanitizePath (sanitizePath (cs "foo/../bar//")) =
      sanitizePath (cs "foo/../bar//") :=
  ⟨by decide, sanitizePath_idempotent_of_no_whitespace (cs "foo/../bar//")
    (by decide)⟩

-- =============================================================================
-- § Escaper: escapeForServiceWorker (src/utils/security.ts)
-- =============================================================================

/-- Decimal digits of a natural number (fuelled division loop; `n + 1` fuel
always suffices since the argument shrinks ten-fold each step). -/
def natToDigitsAux : Nat → Nat → List Char → List Char
  | 0, _, acc => acc
  | fuel + 1, n, acc =>
    let d := Char.ofNat (48 + n % 10)
    if n < 10 then d :: acc else natToDigitsAux fuel (n / 10) (d :: acc)

/-- Decimal rendering of a natural number. -/
def natToDecimal (n : Nat) : List Char := natToDigitsAux (n + 1) n []

/-- Decimal rendering of an integer, as JavaScript prints integral
numbers. -/
def intToDecimal (i : Int) : List Char :=
  if i < 0 then '-' :: natToDecimal i.natAbs else natToDecimal i.toNat

/-- A lowercase hexadecimal digit. -/
def hexDigit (n : Nat) : Char :=
  if n < 10 then Char.ofNat (48 + n) else Char.ofNat (87 + n)

/-- `JSON.stringify` escaping of one string character. -/
def escJsonChar (c : Char) : List Char :=
  if c = '"' then [Char.ofNat 92, '"']
  else if c = Char.ofNat 92 then [Char.ofNat 92, Char.ofNat 92]
  else if c = Char.ofNat 8 then [Char.ofNat 92, 'b']
  else if c = Char.ofNat 12 then [Char.ofNat 92, 'f']
  else if c = Char.ofNat 10 then [Char.ofNat 92, 'n']
  else if c = Char.ofNat 13 then [Char.ofNat 92, 'r']
  else if c = Char.ofNat 9 then [Char.ofNat 92, 't']
  else if c.toNat < 0x20 then
    [Char.ofNat 92, 'u', '0', '0', hexDigit (c.toNat / 16), hexDigit (c.toNat % 16)]
  else [c]

/-- `JSON.stringify` quoting of a whole string. -/
def quoteJsonString (s : List Char) : List Char :=
  '"' :: s.foldr (fun c acc => escJsonChar c ++ acc) ['"']

/-- Comma-join of rendered members. -/
def joinComma : List (List Char) → List Char
  | [] => []
  | [x] => x
  | x :: y :: rest => x ++ ',' :: joinComma (y :: rest)

mutual
/-- `JSON.stringify` over the value model: `none` models both an `undefined`
result (top-level `undefined`, function or symbol) and a thrown `TypeError`
(a BigInt anywhere); both make `escapeForServiceWorker` emit `null`.
Compiled patterns have no enumerable own properties, so they serialize to
the empty object.  Non-integral numbers are floating point, outside the
model. -/
def jsonStringifyVal : JSValue → Option (List Char)
  | .undef => none
  | .func _ => none
  | .symbol _ => none
  | .bigint _ => none
  | .jsNull => some (cs "null")
  | .boolean true => some (cs "true")
  | .boolean false => some (cs "false")
  | .number n => some (intToDecimal n)
  | .jsString s => some (quoteJsonString s)
  | .regexp _ _ => some [Char.ofNat 123, Char.ofNat 125]
  | .array es =>
    (jsonStringifyElems es).map (fun parts => '[' :: joinComma parts ++ [']'])
  | .object fs =>
    (jsonStringifyFields fs).map
      (fun parts => Char.ofNat 123 :: joinComma parts ++ [Char.ofNat 125])

/-- Array elements: `undefined`, functions and symbols render as `null`. -/
def jsonStringifyElems : List JSValue → Option (List (List Char))
  | [] => some []
  | v :: rest =>
    match v with
    | .undef =>
      (jsonStringifyElems rest).map (fun parts => cs "null" :: parts)
    | .func _ =>
      (jsonStringifyElems rest).map (fun parts => cs "null" :: parts)
    | .symbol _ =>
      (jsonStringifyElems rest).map (fun parts => cs "null" :: parts)
    | v' =>
      match jsonStringifyVal v', jsonStringifyElems rest with
      | some s, some parts => some (s :: parts)
      | _, _ => none

/-- Object members: fields holding `undefined`, functions or symbols are
omitted. -/
def jsonStringifyFields : List ((List Char) × JSValue) → Option (List (List Char))
  | [] => some []
  | (k, v) :: rest =>
    match v with
    | .undef => jsonStringifyFields rest
    | .func _ => jsonStringifyFields rest
    | .symbol _ => jsonStringifyFields rest
    | v' =>
      match jsonStringifyVal v', jsonStringifyFields rest with
      | some s, some parts => some ((quoteJsonString k ++ ':' :: s) :: parts)
      | _, _ => none
end

/-- `.replace(/\\/g, '\\\\')`: double every backslash. -/
def escBackslash (l : List Char) : List Char :=
  l.foldr
    (fun c acc =>
      if c = Char.ofNat 92 then Char.ofNat 92 :: Char.ofNat 92 :: acc
      else c :: acc) []

/-- Backtick escaping. -/
def escBacktick (l : List Char) : List Char :=
  l.foldr
    (fun c acc =>
      if c = Char.ofNat 96 then Char.ofNat 92 :: Char.ofNat 96 :: acc
      else c :: acc) []

/-- `${`-escaping (template-literal interpolation). -/
def escDollarBrace : List Char → List Char
  | c1 :: c2 :: rest =>
    if c1 = '$' ∧ c2 = Char.ofNat 123 then
      Char.ofNat 92 :: '$' :: Char.ofNat 123 :: escDollarBrace rest
    else c1 :: escDollarBrace (c2 :: rest)
  | l => l

/-- `/<\/script>/gi` escaping: any case variant is replaced by the fixed
lowercase text with an inserted backslash. -/
def escScriptClose : List Char → List Char
  | c1 :: c2 :: c3 :: c4 :: c5 :: c6 :: c7 :: c8 :: c9 :: rest =>
    if c1 = '<' ∧ c2 = '/' ∧ (c3 = 's' ∨ c3 = 'S') ∧ (c4 = 'c' ∨ c4 = 'C') ∧
        (c5 = 'r' ∨ c5 = 'R') ∧ (c6 = 'i' ∨ c6 = 'I') ∧ (c7 = 'p' ∨ c7 = 'P') ∧
        (c8 = 't' ∨ c8 = 'T') ∧ c9 = '>' then
      '<' :: Char.ofNat 92 :: '/' :: 's' :: 'c' :: 'r' :: 'i' :: 'p' :: 't' ::
        '>' :: escScriptClose rest
    else c1 :: escScriptClose (c2 :: c3 :: c4 :: c5 :: c6 :: c7 :: c8 :: c9 :: rest)
  | l => l

/-- `<!--`-escaping (HTML comment open). -/
def escCommentOpen : List Char → List Char
  | c1 :: c2 :: c3 :: c4 :: rest =>
    if c1 = '<' ∧ c2 = '!' ∧ c3 = '-' ∧ c4 = '-' then
      '<' :: Char.ofNat 92 :: '!' :: '-' :: '-' :: escCommentOpen rest
    else c1 :: escCommentOpen (c2 :: c3 :: c4 :: rest)
  | l => l

/-- U+2028 (line separator) escaping. -/
def escLineSep (l : List Char) : List Char :=
  l.foldr
    (fun c acc =>
      if c = Char.ofNat 0x2028 then
        Char.ofNat 92 :: 'u' :: '2' :: '0' :: '2' :: '8' :: acc
      else c :: acc) []

/-- U+2029 (paragraph separator) escaping. -/
def escParaSep (l : List Char) : List Char :=
  l.foldr
    (fun c acc =>
      if c = Char.ofNat 0x2029 then
        Char.ofNat 92 :: 'u' :: '2' :: '0' :: '2' :: '9' :: acc
      else c :: acc) []

/-- The ordered character-level escaping applied after serialization:
backslashes first, then backtick, `${`, `</script>` (case-insensitive),
`<!--`, and the two Unicode line terminators. -/
def escapeTemplate (l : List Char) : List Char :=
  escParaSep (escLineSep (escCommentOpen (escScriptClose
    (escDollarBrace (escBacktick (escBackslash l))))))

/-- `escapeForServiceWorker` from `src/utils/security.ts`: `undefined`
becomes the literal text `undefined`; functions and symbols become `null`;
BigInt becomes its quoted decimal string; everything else is serialized
with `JSON.stringify` (`null` on failure) and then escaped for safe
embedding in a template literal. -/
def escapeForServiceWorker (v : JSValue) : List Char :=
  match v with
  | .undef => cs "undefined"
  | .func _ => cs "null"
  | .symbol _ => cs "null"
  | .bigint n => '"' :: intToDecimal n ++ ['"']
  | v' =>
    match jsonStringifyVal v' with
    | none => cs "null"
    | some serialized => escapeTemplate serialized

-- =============================================================================
-- § A model of JSON.parse (for the Escaper round-trip)
-- =============================================================================

/-- JSON whitespace. -/
def isJsonWs (c : Char) : Bool :=
  c = ' ' || c = Char.ofNat 9 || c = Char.ofNat 10 || c = Char.ofNat 13

/-- Skip JSON whitespace. -/
def skipJsonWs (l : List Char) : List Char := l.dropWhile isJsonWs

/-- Value of one hexadecimal digit. -/
def hexVal (c : Char) : Option Nat :=
  if '0' ≤ c ∧ c ≤ '9' then some (c.toNat - 48)
  else if 'a' ≤ c ∧ c ≤ 'f' then some (c.toNat - 87)
  else if 'A' ≤ c ∧ c ≤ 'F' then some (c.toNat - 55)
  else none

/-- The body of a JSON string literal, after the opening quote: raw
characters up to the closing quote, with the standard escapes.  Lone
surrogate escapes are a modelling boundary (the model's characters are
Unicode scalar values) and are rejected. -/
def parseStringBody : List Char → Option (List Char × List Char)
  | [] => none
  | c :: rest =>
    if c = '"' then some ([], rest)
    else if c = Char.ofNat 92 then
      match rest with
      | [] => none
      | e :: rest2 =>
        if e = '"' then (parseStringBody rest2).map (fun p => ('"' :: p.1, p.2))
        else if e = Char.ofNat 92 then
          (parseStringBody rest2).map (fun p => (Char.ofNat 92 :: p.1, p.2))
        else if e = '/' then (parseStringBody rest2).map (fun p => ('/' :: p.1, p.2))
        else if e = 'b' then
          (parseStringBody rest2).map (fun p => (Char.ofNat 8 :: p.1, p.2))
        else if e = 'f' then
          (parseStringBody rest2).map (fun p => (Char.ofNat 12 :: p.1, p.2))
        else if e = 'n' then
          (parseStringBody rest2).map (fun p => (Char.ofNat 10 :: p.1, p.2))
        else if e = 'r' then
          (parseStringBody rest2).map (fun p => (Char.ofNat 13 :: p.1, p.2))
        else if e = 't' then
          (parseStringBody rest2).map (fun p => (Char.ofNat 9 :: p.1, p.2))
        else if e = 'u' then
          match rest2 with
          | h1 :: h2 :: h3 :: h4 :: rest3 =>
            match hexVal h1, hexVal h2, hexVal h3, hexVal h4 with
            | some a, some b, some c3, some d =>
              let code := ((a * 16 + b) * 16 + c3) * 16 + d
              if 0xd800 ≤ code ∧ code ≤ 0xdfff then none
              else (parseStringBody rest3).map (fun p => (Char.ofNat code :: p.1, p.2))
            | _, _, _, _ => none
          | _ => none
        else none
    else if c.toNat < 0x20 then none
    else (parseStringBody rest).map (fun p => (c :: p.1, p.2))

/-- Decimal digit test. -/
def isDigitChar (c : Char) : Bool := '0' ≤ c && c ≤ '9'

/-- Digits to a natural number. -/
def digitsToNat (ds : List Char) : Nat :=
  ds.foldl (fun acc c => acc * 10 + (c.toNat - 48)) 0

/-- A JSON number.  Fractions and exponents denote doubles, which are
outside the integer number model, so they are rejected here. -/
def parseJsonNumber (l : List Char) : Option (Int × List Char) :=
  let (neg, l1) : Bool × List Char :=
    match l with
    | '-' :: r => (true, r)
    | _ => (false, l)
  let ds := l1.takeWhile isDigitChar
  let rest := l1.dropWhile isDigitChar
  if ds = [] then none
  else if ds.length > 1 ∧ ds.head? = some '0' then none
  else
    match rest with
    | '.' :: _ => none
    | 'e' :: _ => none
    | 'E' :: _ => none
    | _ =>
      some (if neg then -(digitsToNat ds : Int) else (digitsToNat ds : Int), rest)

/-- Object construction: assigning a key that already exists replaces its
value in place, as JavaScript property assignment does (so duplicate JSON
keys are last-write-wins). -/
def jsUpsert (fields : List ((List Char) × JSValue)) (kv : (List Char) × JSValue) :
    List ((List Char) × JSValue) :=
  match fields with
  | [] => [kv]
  | (k0, v0) :: rest =>
    if k0 = kv.1 then (k0, kv.2) :: rest else (k0, v0) :: jsUpsert rest kv

/-- Fold a parsed member list into a JavaScript object. -/
def buildJsObject (pairs : List ((List Char) × JSValue)) :
    List ((List Char) × JSValue) :=
  pairs.foldl jsUpsert []

mutual
/-- A JSON value (fuelled recursive descent; the fuel bounds the nesting
of parse calls and `length + 1` always suffices). -/
def parseJsonVal : Nat → List Char → Option (JSValue × List Char)
  | 0, _ => none
  | fuel + 1, l0 =>
    match skipJsonWs l0 with
    | 'n' :: 'u' :: 'l' :: 'l' :: rest => some (.jsNull, rest)
    | 't' :: 'r' :: 'u' :: 'e' :: rest => some (.boolean true, rest)
    | 'f' :: 'a' :: 'l' :: 's' :: 'e' :: rest => some (.boolean false, rest)
    | '"' :: rest => (parseStringBody rest).map (fun p => (.jsString p.1, p.2))
    | '[' :: rest =>
      match skipJsonWs rest with
      | ']' :: rest2 => some (.array [], rest2)
      | r1 => (parseJsonElems fuel r1).map (fun p => (.array p.1, p.2))
    | c :: rest =>
      if c = Char.ofNat 123 then
        match skipJsonWs rest with
        | c2 :: rest2 =>
          if c2 = Char.ofNat 125 then some (.object [], rest2)
          else
            (parseJsonMembers fuel (c2 :: rest2)).map
              (fun p => (.object (buildJsObject p.1), p.2))
        | [] => none
      else (parseJsonNumber (c :: rest)).map (fun p => (.number p.1, p.2))
    | [] => none

/-- One or more array elements, consuming the closing bracket. -/
def parseJsonElems : Nat → List Char → Option (List JSValue × List Char)
  | 0, _ => none
  | fuel + 1, l =>
    match parseJsonVal fuel l with
    | none => none
    | some (v, rest) =>
      match skipJsonWs rest with
      | ',' :: rest2 => (parseJsonElems fuel rest2).map (fun p => (v :: p.1, p.2))
      | ']' :: rest2 => some ([v], rest2)
      | _ => none

/-- One or more object members (in textual order), consuming the closing
brace. -/
def parseJsonMembers : Nat → List Char →
    Option (List ((List Char) × JSValue) × List Char)
  | 0, _ => none
  | fuel + 1, l =>
    match skipJsonWs l with
    | '"' :: rest =>
      match parseStringBody rest with
      | none => none
      | some (k, rest2) =>
        match skipJsonWs rest2 with
        | ':' :: rest3 =>
          match parseJsonVal fuel rest3 with
          | none => none
          | some (v, rest4) =>
            match skipJsonWs rest4 with
            | ',' :: rest5 =>
              (parseJsonMembers fuel rest5).map (fun p => ((k, v) :: p.1, p.2))
            | c :: rest5 =>
              if c = Char.ofNat 125 then some ([(k, v)], rest5) else none
            | [] => none
        | _ => none
    | _ => none
end

/-- `JSON.parse`: one value surrounded by optional whitespace. -/
def jsonParse (s : List Char) : Option JSValue :=
  match parseJsonVal (s.length + 1) s with
  | some (v, rest) => if skipJsonWs rest = [] then some v else none
  | none => none

-- =============================================================================
-- § Theorems for C4: Escaper round trip
-- =============================================================================

/-- The digit loop is an accumulator homomorphism. -/
lemma natToDigitsAux_acc (fuel : Nat) :
    ∀ n acc, natToDigitsAux fuel n acc = natToDigitsAux fuel n [] ++ acc := by
  induction fuel with
  | zero => intro n acc; simp [natToDigitsAux]
  | succ fuel ih =>
    intro n acc
    simp only [natToDigitsAux]
    by_cases h : n < 10
    · rw [if_pos h, if_pos h]
      rfl
    · rw [if_neg h, if_neg h, ih (n / 10) (Char.ofNat (48 + n % 10) :: acc),
        ih (n / 10) [Char.ofNat (48 + n % 10)]]
      simp

/-- `digitsToNat` over an appended final digit. -/
lemma digitsToNat_append_one (xs : List Char) (d : Char) :
    digitsToNat (xs ++ [d]) = 10 * digitsToNat xs + (d.toNat - 48) := by
  simp only [digitsToNat, List.foldl_append, List.foldl_cons, List.foldl_nil]
  omega

/-- Facts about one decimal digit character. -/
lemma digitChar_facts (m : Nat) (h : m < 10) :
    isDigitChar (Char.ofNat (48 + m)) = true ∧
    (Char.ofNat (48 + m)).toNat = 48 + m ∧
    (1 ≤ m → Char.ofNat (48 + m) ≠ '0') := by
  interval_cases m <;>
    exact ⟨by decide, by decide, by
      intro h1
      first
      | exact absurd h1 (by decide)
      | decide⟩

/-- Correctness of decimal printing: digits only, non-empty, value
round-trips, no leading zero for `n ≥ 10`, and a single digit for
`n < 10`. -/
lemma natToDigitsAux_spec (n : Nat) :
    ∀ fuel, n < fuel →
      (∀ c ∈ natToDigitsAux fuel n [], isDigitChar c = true) ∧
      natToDigitsAux fuel n [] ≠ [] ∧
      digitsToNat (natToDigitsAux fuel n []) = n ∧
      (10 ≤ n → (natToDigitsAux fuel n []).head? ≠ some '0') ∧
      (n < 10 → natToDigitsAux fuel n [] = [Char.ofNat (48 + n)]) := by
  induction n using Nat.strong_induction_on with
  | _ n ih =>
    intro fuel hfuel
    cases fuel with
    | zero => omega
    | succ fuel =>
      simp only [natToDigitsAux]
      by_cases h : n < 10
      · rw [if_pos h]
        have hm : n % 10 = n := Nat.mod_eq_of_lt h
        obtain ⟨f1, f2, f3⟩ := digitChar_facts (n % 10) (by omega)
        refine ⟨?_, by simp, ?_, by omega, by intro _; rw [hm]⟩
        · intro c hc
          simp only [List.mem_singleton] at hc
          subst hc
          exact f1
        · simp only [digitsToNat, List.foldl_cons, List.foldl_nil]
          omega
      · rw [if_neg h]
        rw [natToDigitsAux_acc fuel (n / 10) [Char.ofNat (48 + n % 10)]]
        have hlt : n / 10 < n := Nat.div_lt_self (by omega) (by omega)
        obtain ⟨g1, g2, g3, g4, g5⟩ := ih (n / 10) hlt fuel (by omega)
        obtain ⟨f1, f2, f3⟩ := digitChar_facts (n % 10) (by omega)
        refine ⟨?_, by simp [g2], ?_, ?_, by intro h10; omega⟩
        · intro c hc
          rcases List.mem_append.mp hc with hc | hc
          · exact g1 c hc
          · simp only [List.mem_singleton] at hc
            subst hc
            exact f1
        · rw [digitsToNat_append_one, g3]
          omega
        · intro _
          by_cases h10 : 10 ≤ n / 10
          · have hne := g4 h10
            cases haux : natToDigitsAux fuel (n / 10) [] with
            | nil => exact absurd haux g2
            | cons a t =>
              rw [haux] at hne
              simp only [List.head?_cons] at hne
              simp only [haux, List.cons_append, List.head?_cons]
              exact hne
          · have hsingle := g5 (by omega)
            rw [hsingle]
            obtain ⟨_, _, f3d⟩ := digitChar_facts (n / 10) (by omega)
            have hne : Char.ofNat (48 + n / 10) ≠ '0' := f3d (by omega)
            simp only [List.cons_append, List.nil_append, List.head?_cons,
              ne_eq, Option.some.injEq]
            exact fun hEq => hne hEq

/-- `takeWhile` passes over a block that satisfies the predicate. -/
lemma takeWhile_append_all (p : Char → Bool) (a b : List Char)
    (ha : ∀ c ∈ a, p c = true) :
    (a ++ b).takeWhile p = a ++ b.takeWhile p := by
  induction a with
  | nil => simp
  | cons c t ih =>
    have h1 := ha c (List.mem_cons_self c t)
    simp only [List.cons_append, List.takeWhile_cons, h1, if_true]
    rw [ih (fun x hx => ha x (List.mem_cons_of_mem c hx))]

/-- `dropWhile` passes over a block that satisfies the predicate. -/
lemma dropWhile_append_all (p : Char → Bool) (a b : List Char)
    (ha : ∀ c ∈ a, p c = true) :
    (a ++ b).dropWhile p = b.dropWhile p := by
  induction a with
  | nil => simp
  | cons c t ih =>
    have h1 := ha c (List.mem_cons_self c t)
    simp only [List.cons_append, List.dropWhile_cons, h1, if_true]
    exact ih (fun x hx => ha x (List.mem_cons_of_mem c hx))

/-- `takeWhile` stops at an unsatisfying head. -/
lemma takeWhile_eq_nil_of_head (p : Char → Bool) (b : List Char)
    (hb : ∀ c, b.head? = some c → p c = false) : b.takeWhile p = [] := by
  cases b with
  | nil => rfl
  | cons c t =>
    rw [List.takeWhile_cons, if_neg]
    simp [hb c rfl]

/-- `dropWhile` keeps everything from an unsatisfying head. -/
lemma dropWhile_eq_self_of_head_char (p : Char → Bool) (b : List Char)
    (hb : ∀ c, b.head? = some c → p c = false) : b.dropWhile p = b := by
  cases b with
  | nil => rfl
  | cons c t =>
    rw [List.dropWhile_cons, if_neg]
    simp [hb c rfl]

/-- A digit character is not a minus sign. -/
lemma digit_ne_minus {c : Char} (h : isDigitChar c = true) : c ≠ '-' := by
  intro hEq
  subst hEq
  exact absurd h (by decide)

/-- Conditions under which a trailing context does not extend a number
literal. -/
def numberStops (R : List Char) : Prop :=
  ∀ c, R.head? = some c →
    isDigitChar c = false ∧ c ≠ '.' ∧ c ≠ 'e' ∧ c ≠ 'E'

/-- Parsing the printed digits of a natural number. -/
lemma parseJsonNumber_natToDecimal (n : Nat) (R : List Char)
    (hR : numberStops R) :
    parseJsonNumber (natToDecimal n ++ R) = some ((n : Int), R) := by
  obtain ⟨hdig, hne, hval, hlead, hsingle⟩ :=
    natToDigitsAux_spec n (n + 1) (Nat.lt_succ_self n)
  have hdefn : natToDecimal n = natToDigitsAux (n + 1) n [] := rfl
  rw [hdefn]
  cases hds : natToDigitsAux (n + 1) n [] with
  | nil => exact absurd hds hne
  | cons d ds =>
    rw [hds] at hdig hval hlead
    have hdigCons : ∀ c ∈ d :: ds, isDigitChar c = true := hdig
    simp only [parseJsonNumber, List.cons_append]
    have hdm : d ≠ '-' := digit_ne_minus (hdigCons d (List.mem_cons_self d ds))
    have hmatch : (match d :: (ds ++ R) with
        | '-' :: r => ((true : Bool), r)
        | _ => ((false : Bool), d :: (ds ++ R))) =
        ((false : Bool), d :: (ds ++ R)) := by
      split
      · rename_i r heq
        injection heq with h1 _
        exact absurd h1 hdm
      · rfl
    rw [hmatch]
    dsimp only
    rw [show d :: (ds ++ R) = (d :: ds) ++ R from rfl,
      takeWhile_append_all isDigitChar (d :: ds) R hdigCons,
      dropWhile_append_all isDigitChar (d :: ds) R hdigCons,
      takeWhile_eq_nil_of_head isDigitChar R (fun c hc => (hR c hc).1),
      dropWhile_eq_self_of_head_char isDigitChar R (fun c hc => (hR c hc).1),
      List.append_nil]
    rw [if_neg (by simp), if_neg ?hlz]
    case hlz =>
      rintro ⟨hlen, hhead⟩
      have h10 : 10 ≤ n := by
        by_contra hn
        have hsing := hsingle (by omega)
        rw [hsing] at hds
        have htail : ([] : List Char) = ds := by injection hds
        rw [← htail] at hlen
        simp at hlen
      have hh := hlead h10
      simp only [List.head?_cons] at hh
      simp only [List.head?_cons] at hhead
      exact hh (by rw [hhead])
    split
    case h_1 x heq =>
      exfalso
      rcases hR '.' rfl with ⟨-, h2, -, -⟩
      exact h2 rfl
    case h_2 x heq =>
      exfalso
      rcases hR 'e' rfl with ⟨-, -, h3, -⟩
      exact h3 rfl
    case h_3 x heq =>
      exfalso
      rcases hR 'E' rfl with ⟨-, -, -, h4⟩
      exact h4 rfl
    case h_4 =>
      simp only [Bool.false_eq_true, if_false, hval]

/-- Parsing the printed form of an integer. -/
lemma parseJsonNumber_intToDecimal (i : Int) (R : List Char)
    (hR : numberStops R) :
    parseJsonNumber (intToDecimal i ++ R) = some (i, R) := by
  by_cases hi : i < 0
  · obtain ⟨hdig, hne, hval, hlead, hsingle⟩ :=
      natToDigitsAux_spec i.natAbs (i.natAbs + 1) (Nat.lt_succ_self _)
    rw [intToDecimal, if_pos hi]
    have hdefn : natToDecimal i.natAbs = natToDigitsAux (i.natAbs + 1) i.natAbs [] := rfl
    rw [hdefn]
    cases hds : natToDigitsAux (i.natAbs + 1) i.natAbs [] with
    | nil => exact absurd hds hne
    | cons d ds =>
      rw [hds] at hdig hval hlead
      have hdigCons : ∀ c ∈ d :: ds, isDigitChar c = true := hdig
      simp only [parseJsonNumber, List.cons_append]
      rw [show d :: (ds ++ R) = (d :: ds) ++ R from rfl,
        takeWhile_append_all isDigitChar (d :: ds) R hdigCons,
        dropWhile_append_all isDigitChar (d :: ds) R hdigCons,
        takeWhile_eq_nil_of_head isDigitChar R (fun c hc => (hR c hc).1),
        dropWhile_eq_self_of_head_char isDigitChar R (fun c hc => (hR c hc).1),
        List.append_nil]
      rw [if_neg (by simp), if_neg ?hlz]
      case hlz =>
        rintro ⟨hlen, hhead⟩
        have h10 : 10 ≤ i.natAbs := by
          by_contra hn
          have hsing := hsingle (by omega)
          rw [hsing] at hds
          have htail : ([] : List Char) = ds := by injection hds
          rw [← htail] at hlen
          simp at hlen
        have hh := hlead h10
        simp only [List.head?_cons] at hh
        simp only [List.head?_cons] at hhead
        exact hh (by rw [hhead])
      split
      · exfalso
        rcases hR '.' rfl with ⟨-, h2, -, -⟩
        exact h2 rfl
      · exfalso
        rcases hR 'e' rfl with ⟨-, -, h3, -⟩
        exact h3 rfl
      · exfalso
        rcases hR 'E' rfl with ⟨-, -, -, h4⟩
        exact h4 rfl
      · rw [if_pos trivial, hval]
        have hAbs : -(i.natAbs : Int) = i := by omega
        rw [hAbs]
  · rw [intToDecimal, if_neg hi,
      parseJsonNumber_natToDecimal i.toNat R hR,
      Int.toNat_of_nonneg (by omega)]

/-- Pairwise-distinct object keys. -/
def keysNodup : List ((List Char) × JSValue) → Bool
  | [] => true
  | (k, _) :: rest => !(rest.any (fun p => p.1 == k)) && keysNodup rest

mutual
/-- JSON-representable data: no `undefined`, function, symbol, BigInt or
compiled pattern anywhere, and every object's keys are pairwise distinct.
These are exactly the values `JSON.stringify` serializes without loss. -/
def jsonSafe : JSValue → Bool
  | .undef => false
  | .func _ => false
  | .symbol _ => false
  | .bigint _ => false
  | .regexp _ _ => false
  | .jsNull => true
  | .boolean _ => true
  | .number _ => true
  | .jsString _ => true
  | .array es => jsonSafeList es
  | .object fs => keysNodup fs && jsonSafeFields fs

/-- `jsonSafe` over array elements. -/
def jsonSafeList : List JSValue → Bool
  | [] => true
  | v :: rest => jsonSafe v && jsonSafeList rest

/-- `jsonSafe` over object fields. -/
def jsonSafeFields : List ((List Char) × JSValue) → Bool
  | [] => true
  | (_, v) :: rest => jsonSafe v && jsonSafeFields rest
end

mutual
/-- Fuel needed by the recursive-descent parser on a value's serialization. -/
def jsonFuelVal : JSValue → Nat
  | .array es => jsonFuelElems es + 1
  | .object fs => jsonFuelFields fs + 1
  | _ => 1

/-- Fuel needed by `parseJsonElems` on a serialized element list. -/
def jsonFuelElems : List JSValue → Nat
  | [] => 1
  | v :: rest => max (jsonFuelVal v) (jsonFuelElems rest) + 1

/-- Fuel needed by `parseJsonMembers` on a serialized member list. -/
def jsonFuelFields : List ((List Char) × JSValue) → Nat
  | [] => 1
  | (_, v) :: rest => max (jsonFuelVal v) (jsonFuelFields rest) + 1
end

/-- String-body encoding used inside `quoteJsonString`. -/
def jsonEncodeStr (s : List Char) : List Char :=
  s.foldr (fun c acc => escJsonChar c ++ acc) []

/-- `quoteJsonString` in terms of the bare body encoding. -/
lemma quoteJsonString_eq (s : List Char) :
    quoteJsonString s = '"' :: (jsonEncodeStr s ++ ['"']) := by
  unfold quoteJsonString jsonEncodeStr
  congr 1
  induction s with
  | nil => rfl
  | cons c t ih => simp only [List.foldr_cons, ih, List.append_assoc]

/-- A digit is neither JSON whitespace, a closing bracket, nor an opening
brace. -/
lemma digit_not_ws {c : Char} (h : isDigitChar c = true) :
    isJsonWs c = false ∧ c ≠ ']' ∧ c ≠ Char.ofNat 123 := by
  simp only [isDigitChar, Bool.and_eq_true, decide_eq_true_eq] at h
  refine ⟨?_, ?_, ?_⟩
  · simp only [isJsonWs, Bool.or_eq_false_iff, decide_eq_false_iff_not]
    refine ⟨⟨⟨?_, ?_⟩, ?_⟩, ?_⟩ <;>
      (intro hEq; subst hEq; exact absurd h (by decide))
  · intro hEq; subst hEq; exact absurd h (by decide)
  · intro hEq; subst hEq; exact absurd h (by decide)

/-- `hexVal` inverts `hexDigit` on values below 16. -/
lemma hexVal_hexDigit (n : Nat) (h : n < 16) :
    hexVal (hexDigit n) = some n := by
  interval_cases n <;> rfl

/-- Decoding a `\u00XY` escape. -/
lemma parseStringBody_u (a b : Char) (va vb : Nat) (X : List Char)
    (ha : hexVal a = some va) (hb : hexVal b = some vb)
    (hcode : ¬ (0xd800 ≤ va * 16 + vb ∧ va * 16 + vb ≤ 0xdfff)) :
    parseStringBody (Char.ofNat 92 :: 'u' :: '0' :: '0' :: a :: b :: X) =
      (parseStringBody X).map
        (fun p => (Char.ofNat (va * 16 + vb) :: p.1, p.2)) := by
  rw [parseStringBody.eq_def]
  simp only [show hexVal '0' = some 0 from rfl, ha, hb]
  simp
  intro h1 h2
  exact absurd ⟨h1, h2⟩ hcode

/-- `parseStringBody` inverts the `JSON.stringify` string-body encoding:
every escape the serializer emits is decoded back to the original
character, and the body ends at the unescaped closing quote. -/
lemma parseStringBody_encode (s : List Char) (R : List Char) :
    parseStringBody (jsonEncodeStr s ++ '"' :: R) = some (s, R) := by
  induction s with
  | nil =>
    rw [show jsonEncodeStr [] ++ '"' :: R = '"' :: R from rfl,
      parseStringBody.eq_def]
    simp
  | cons c t ih =>
    rw [show jsonEncodeStr (c :: t) = escJsonChar c ++ jsonEncodeStr t from rfl,
      List.append_assoc]
    by_cases h1 : c = '"'
    · subst h1
      have hred : ∀ X, parseStringBody (Char.ofNat 92 :: '"' :: X) =
          (parseStringBody X).map (fun p => ('"' :: p.1, p.2)) := by
        intro X
        rw [parseStringBody.eq_def]
        simp
      rw [show escJsonChar '"' = [Char.ofNat 92, '"'] from rfl,
        show [Char.ofNat 92, '"'] ++ (jsonEncodeStr t ++ '"' :: R) =
          Char.ofNat 92 :: '"' :: (jsonEncodeStr t ++ '"' :: R) from rfl,
        hred, ih]
      rfl
    by_cases h2 : c = Char.ofNat 92
    · subst h2
      have hred : ∀ X, parseStringBody (Char.ofNat 92 :: Char.ofNat 92 :: X) =
          (parseStringBody X).map (fun p => (Char.ofNat 92 :: p.1, p.2)) := by
        intro X
        rw [parseStringBody.eq_def]
        simp
      rw [show escJsonChar (Char.ofNat 92) = [Char.ofNat 92, Char.ofNat 92] from rfl,
        show [Char.ofNat 92, Char.ofNat 92] ++ (jsonEncodeStr t ++ '"' :: R) =
          Char.ofNat 92 :: Char.ofNat 92 :: (jsonEncodeStr t ++ '"' :: R) from rfl,
        hred, ih]
      rfl
    by_cases h3 : c = Char.ofNat 8
    · subst h3
      have hred : ∀ X, parseStringBody (Char.ofNat 92 :: 'b' :: X) =
          (parseStringBody X).map (fun p => (Char.ofNat 8 :: p.1, p.2)) := by
        intro X
        rw [parseStringBody.eq_def]
        simp
      rw [show escJsonChar (Char.ofNat 8) = [Char.ofNat 92, 'b'] from rfl,
        show [Char.ofNat 92, 'b'] ++ (jsonEncodeStr t ++ '"' :: R) =
          Char.ofNat 92 :: 'b' :: (jsonEncodeStr t ++ '"' :: R) from rfl,
        hred, ih]
      rfl
    by_cases h4 : c = Char.ofNat 12
    · subst h4
      have hred : ∀ X, parseStringBody (Char.ofNat 92 :: 'f' :: X) =
          (parseStringBody X).map (fun p => (Char.ofNat 12 :: p.1, p.2)) := by
        intro X
        rw [parseStringBody.eq_def]
        simp
      rw [show escJsonChar (Char.ofNat 12) = [Char.ofNat 92, 'f'] from rfl,
        show [Char.ofNat 92, 'f'] ++ (jsonEncodeStr t ++ '"' :: R) =
          Char.ofNat 92 :: 'f' :: (jsonEncodeStr t ++ '"' :: R) from rfl,
        hred, ih]
      rfl
    by_cases h5 : c = Char.ofNat 10
    · subst h5
      have hred : ∀ X, parseStringBody (Char.ofNat 92 :: 'n' :: X) =
          (parseStringBody X).map (fun p => (Char.ofNat 10 :: p.1, p.2)) := by
        intro X
        rw [parseStringBody.eq_def]
        simp
      rw [show escJsonChar (Char.ofNat 10) = [Char.ofNat 92, 'n'] from rfl,
        show [Char.ofNat 92, 'n'] ++ (jsonEncodeStr t ++ '"' :: R) =
          Char.ofNat 92 :: 'n' :: (jsonEncodeStr t ++ '"' :: R) from rfl,
        hred, ih]
      rfl
    by_cases h6 : c = Char.ofNat 13
    · subst h6
      have hred : ∀ X, parseStringBody (Char.ofNat 92 :: 'r' :: X) =
          (parseStringBody X).map (fun p => (Char.ofNat 13 :: p.1, p.2)) := by
        intro X
        rw [parseStringBody.eq_def]
        simp
      rw [show escJsonChar (Char.ofNat 13) = [Char.ofNat 92, 'r'] from rfl,
        show [Char.ofNat 92, 'r'] ++ (jsonEncodeStr t ++ '"' :: R) =
          Char.ofNat 92 :: 'r' :: (jsonEncodeStr t ++ '"' :: R) from rfl,
        hred, ih]
      rfl
    by_cases h7 : c = Char.ofNat 9
    · subst h7
      have hred : ∀ X, parseStringBody (Char.ofNat 92 :: 't' :: X) =
          (parseStringBody X).map (fun p => (Char.ofNat 9 :: p.1, p.2)) := by
        intro X
        rw [parseStringBody.eq_def]
        simp
      rw [show escJsonChar (Char.ofNat 9) = [Char.ofNat 92, 't'] from rfl,
        show [Char.ofNat 92, 't'] ++ (jsonEncodeStr t ++ '"' :: R) =
          Char.ofNat 92 :: 't' :: (jsonEncodeStr t ++ '"' :: R) from rfl,
        hred, ih]
      rfl
    by_cases h8 : c.toNat < 0x20
    · rw [show escJsonChar c = [Char.ofNat 92, 'u', '0', '0',
        hexDigit (c.toNat / 16), hexDigit (c.toNat % 16)] from by
        rw [escJsonChar, if_neg h1, if_neg h2, if_neg h3, if_neg h4, if_neg h5,
          if_neg h6, if_neg h7, if_pos h8]]
      rw [show [Char.ofNat 92, 'u', '0', '0', hexDigit (c.toNat / 16),
        hexDigit (c.toNat % 16)] ++ (jsonEncodeStr t ++ '"' :: R) =
        Char.ofNat 92 :: 'u' :: '0' :: '0' :: hexDigit (c.toNat / 16) ::
        hexDigit (c.toNat % 16) :: (jsonEncodeStr t ++ '"' :: R) from rfl]
      rw [parseStringBody_u _ _ (c.toNat / 16) (c.toNat % 16) _
        (hexVal_hexDigit _ (by omega)) (hexVal_hexDigit _ (by omega))
        (by omega)]
      rw [ih]
      have hcv : c.toNat / 16 * 16 + c.toNat % 16 = c.toNat := by omega
      rw [hcv, Char.ofNat_toNat]
      rfl
    · rw [show escJsonChar c = [c] from by
        rw [escJsonChar, if_neg h1, if_neg h2, if_neg h3, if_neg h4, if_neg h5,
          if_neg h6, if_neg h7, if_neg h8]]
      rw [show [c] ++ (jsonEncodeStr t ++ '"' :: R) =
        c :: (jsonEncodeStr t ++ '"' :: R) from rfl]
      rw [parseStringBody.eq_def]
      simp only []
      rw [if_neg h1, if_neg h2, if_neg (by omega), ih]
      rfl

/-- Upserting a key absent from the accumulator appends. -/
lemma jsUpsert_append (acc : List ((List Char) × JSValue))
    (kv : (List Char) × JSValue)
    (h : ∀ q ∈ acc, (q.1 == kv.1) = false) :
    jsUpsert acc kv = acc ++ [kv] := by
  induction acc with
  | nil => rfl
  | cons q rest ih =>
    obtain ⟨k0, v0⟩ := q
    rw [jsUpsert]
    rw [if_neg]
    · rw [ih (fun q hq => h q (List.mem_cons_of_mem _ hq))]
      rfl
    · intro hEq
      have := h (k0, v0) (List.mem_cons_self _ _)
      simp only [beq_eq_false_iff_ne, ne_eq] at this
      exact this hEq

/-- Folding distinct-keyed members into an object is the identity. -/
lemma foldl_jsUpsert_eq (fs : List ((List Char) × JSValue)) :
    ∀ acc, keysNodup fs = true →
    (∀ p ∈ fs, ∀ q ∈ acc, (q.1 == p.1) = false) →
    List.foldl jsUpsert acc fs = acc ++ fs := by
  induction fs with
  | nil => intro acc _ _; simp
  | cons p rest ih =>
    intro acc hnd hdisj
    obtain ⟨k, v⟩ := p
    simp only [keysNodup, Bool.and_eq_true, Bool.not_eq_true'] at hnd
    obtain ⟨hany, hrest⟩ := hnd
    have hknot : ∀ p ∈ rest, (p.1 == k) = false := by
      intro p hp
      by_contra hcon
      have : rest.any (fun p => p.1 == k) = true :=
        List.any_eq_true.mpr ⟨p, hp, by
          cases hpk : (p.1 == k) with
          | true => rfl
          | false => exact absurd hpk hcon⟩
      rw [this] at hany
      exact Bool.noConfusion hany
    rw [List.foldl_cons,
      jsUpsert_append acc (k, v)
        (fun q hq => hdisj (k, v) (List.mem_cons_self _ _) q hq)]
    rw [ih (acc ++ [(k, v)]) hrest]
    · simp
    · intro p hp q hq
      rcases List.mem_append.mp hq with hq1 | hq2
      · exact hdisj p (List.mem_cons_of_mem _ hp) q hq1
      · have hqe : q = (k, v) := List.mem_singleton.mp hq2
        subst hqe
        have := hknot p hp
        simp only [beq_eq_false_iff_ne, ne_eq] at this ⊢
        exact fun hEq => this hEq.symm

/-- Building an object from distinct-keyed parsed members is the identity. -/
lemma buildJsObject_eq (fs : List ((List Char) × JSValue))
    (h : keysNodup fs = true) : buildJsObject fs = fs := by
  rw [buildJsObject, foldl_jsUpsert_eq fs [] h (fun p _ q hq => absurd hq (List.not_mem_nil q))]
  rfl

/-- Every serialization is nonempty and starts with a character that is
neither JSON whitespace nor a closing bracket. -/
lemma stringifyVal_head (v : JSValue) (s : List Char)
    (h : jsonStringifyVal v = some s) :
    ∃ c t, s = c :: t ∧ isJsonWs c = false ∧ c ≠ ']' := by
  cases v with
  | undef => exact absurd h (by rw [jsonStringifyVal]; intro hc; exact Option.noConfusion hc)
  | func f => exact absurd h (by rw [jsonStringifyVal]; intro hc; exact Option.noConfusion hc)
  | symbol n => exact absurd h (by rw [jsonStringifyVal]; intro hc; exact Option.noConfusion hc)
  | bigint n => exact absurd h (by rw [jsonStringifyVal]; intro hc; exact Option.noConfusion hc)
  | jsNull =>
    rw [jsonStringifyVal] at h
    injection h with h
    exact ⟨'n', _, h.symm, by decide, by decide⟩
  | boolean b =>
    cases b with
    | true =>
      rw [jsonStringifyVal] at h
      injection h with h
      exact ⟨'t', _, h.symm, by decide, by decide⟩
    | false =>
      rw [jsonStringifyVal] at h
      injection h with h
      exact ⟨'f', _, h.symm, by decide, by decide⟩
  | number i =>
    rw [jsonStringifyVal] at h
    injection h with h
    rw [intToDecimal] at h
    by_cases hi : i < 0
    · rw [if_pos hi] at h
      exact ⟨'-', _, h.symm, by decide, by decide⟩
    · rw [if_neg hi] at h
      obtain ⟨hdig, hne, -, -, -⟩ :=
        natToDigitsAux_spec i.toNat (i.toNat + 1) (Nat.lt_succ_self _)
      rcases hd : natToDigitsAux (i.toNat + 1) i.toNat [] with _ | ⟨d, ds⟩
      · exact absurd hd hne
      · rw [natToDecimal, hd] at h
        have hdd : isDigitChar d = true := by
          rw [hd] at hdig
          exact hdig d (List.mem_cons_self _ _)
        obtain ⟨hw, hb, -⟩ := digit_not_ws hdd
        exact ⟨d, ds, h.symm, hw, hb⟩
  | jsString s0 =>
    rw [jsonStringifyVal] at h
    injection h with h
    rw [quoteJsonString_eq] at h
    exact ⟨'"', _, h.symm, by decide, by decide⟩
  | regexp so fl =>
    rw [jsonStringifyVal] at h
    injection h with h
    exact ⟨Char.ofNat 123, _, h.symm, by decide, by decide⟩
  | array es =>
    rw [jsonStringifyVal] at h
    cases hes : jsonStringifyElems es with
    | none => rw [hes] at h; exact Option.noConfusion h
    | some parts =>
      rw [hes] at h
      injection h with h
      exact ⟨'[', _, h.symm, by decide, by decide⟩
  | object fs =>
    rw [jsonStringifyVal] at h
    cases hfs : jsonStringifyFields fs with
    | none => rw [hfs] at h; exact Option.noConfusion h
    | some parts =>
      rw [hfs] at h
      injection h with h
      exact ⟨Char.ofNat 123, _, h.symm, by decide, by decide⟩

/-- Parser fuel is always positive. -/
lemma jsonFuelVal_pos (v : JSValue) : 1 ≤ jsonFuelVal v := by
  cases v <;> simp [jsonFuelVal]

/-- The empty trailing context stops a number. -/
lemma numberStops_nil : numberStops [] := by
  intro c hc
  exact Option.noConfusion hc

/-- A non-extending head character stops a number. -/
lemma numberStops_cons (c : Char) (R : List Char) (h1 : isDigitChar c = false)
    (h2 : c ≠ '.') (h3 : c ≠ 'e') (h4 : c ≠ 'E') : numberStops (c :: R) := by
  intro c' hc'
  rw [List.head?_cons] at hc'
  injection hc' with hc'
  subst hc'
  exact ⟨h1, h2, h3, h4⟩

/-- Serializing a JSON-safe element prepends its own serialization. -/
lemma stringifyElems_safe_cons (v0 : JSValue) (rest : List JSValue)
    (hsafe : jsonSafe v0 = true) :
    jsonStringifyElems (v0 :: rest) =
      match jsonStringifyVal v0, jsonStringifyElems rest with
      | some s, some parts => some (s :: parts)
      | _, _ => none := by
  cases v0 <;> first
    | rfl
    | exact absurd hsafe (by simp [jsonSafe])

/-- Serializing a JSON-safe field prepends its quoted key and serialized
value. -/
lemma stringifyFields_safe_cons (k : List Char) (v0 : JSValue)
    (rest : List ((List Char) × JSValue)) (hsafe : jsonSafe v0 = true) :
    jsonStringifyFields ((k, v0) :: rest) =
      match jsonStringifyVal v0, jsonStringifyFields rest with
      | some s, some parts => some ((quoteJsonString k ++ ':' :: s) :: parts)
      | _, _ => none := by
  cases v0 <;> first
    | rfl
    | exact absurd hsafe (by simp [jsonSafe])

/-- Parser dispatch on a string literal. -/
lemma parseJsonVal_quote (f : Nat) (Y : List Char) :
    parseJsonVal (f + 1) ('"' :: Y) =
      (parseStringBody Y).map (fun p => (JSValue.jsString p.1, p.2)) := rfl

/-- Parser dispatch on a negative number. -/
lemma parseJsonVal_minus (f : Nat) (Y : List Char) :
    parseJsonVal (f + 1) ('-' :: Y) =
      (parseJsonNumber ('-' :: Y)).map (fun p => (JSValue.number p.1, p.2)) := rfl

/-- Parser dispatch on an array opener. -/
lemma parseJsonVal_bracket (f : Nat) (Y : List Char) :
    parseJsonVal (f + 1) ('[' :: Y) =
      match skipJsonWs Y with
      | ']' :: rest2 => some (.array [], rest2)
      | r1 => (parseJsonElems f r1).map (fun p => (.array p.1, p.2)) := rfl

/-- Parser dispatch on an object opener. -/
lemma parseJsonVal_brace (f : Nat) (Y : List Char) :
    parseJsonVal (f + 1) (Char.ofNat 123 :: Y) =
      match skipJsonWs Y with
      | c2 :: rest2 =>
        if c2 = Char.ofNat 125 then some (.object [], rest2)
        else
          (parseJsonMembers f (c2 :: rest2)).map
            (fun p => (.object (buildJsObject p.1), p.2))
      | [] => none := rfl

/-- Parser dispatch on a member list headed by a quoted key. -/
lemma parseJsonMembers_quote (f : Nat) (Y : List Char) :
    parseJsonMembers (f + 1) ('"' :: Y) =
      match parseStringBody Y with
      | none => none
      | some (k, rest2) =>
        match skipJsonWs rest2 with
        | ':' :: rest3 =>
          match parseJsonVal f rest3 with
          | none => none
          | some (v, rest4) =>
            match skipJsonWs rest4 with
            | ',' :: rest5 =>
              (parseJsonMembers f rest5).map (fun p => ((k, v) :: p.1, p.2))
            | c :: rest5 =>
              if c = Char.ofNat 125 then some ([(k, v)], rest5) else none
            | [] => none
        | _ => none := rfl

/-- Parser dispatch on a leading digit: all keyword and structural arms miss
and the input is read as a number. -/
lemma parseJsonVal_number_head (f : Nat) (d : Char) (X : List Char)
    (hd : isDigitChar d = true) :
    parseJsonVal (f + 1) (d :: X) =
      (parseJsonNumber (d :: X)).map (fun p => (JSValue.number p.1, p.2)) := by
  obtain ⟨hw, hb, hbrace⟩ := digit_not_ws hd
  rw [parseJsonVal.eq_def]
  simp only []
  rw [show skipJsonWs (d :: X) = d :: X from
    dropWhile_eq_self_of_head_char _ _ (fun c hc => by
      rw [List.head?_cons] at hc; injection hc with hc; subst hc; exact hw)]
  split
  all_goals
    try
      (rename_i heq
       injection heq with h1 h2
       subst h1
       exact absurd hd (by decide))
  all_goals
    try (rename_i heq; exact List.noConfusion heq)
  all_goals
    (rename_i heq
     injection heq with h1 h2
     subst h1
     subst h2
     rw [if_neg hbrace])

/-- Splitting a comma join at its first part. -/
lemma joinComma_cons (x : List Char) (xs : List (List Char)) :
    ∃ q, joinComma (x :: xs) = x ++ q := by
  cases xs with
  | nil => exact ⟨[], (List.append_nil x).symm⟩
  | cons y t => exact ⟨',' :: joinComma (y :: t), rfl⟩

/-- Parser dispatch on an object opener followed by a quoted key. -/
lemma parseJsonVal_brace_quote (f : Nat) (Z : List Char) :
    parseJsonVal (f + 1) (Char.ofNat 123 :: '"' :: Z) =
      (parseJsonMembers f ('"' :: Z)).map
        (fun p => (JSValue.object (buildJsObject p.1), p.2)) := rfl

/-- Parser dispatch on an array opener followed by a non-bracket element. -/
lemma parseJsonVal_bracket_head (f : Nat) (c : Char) (Z : List Char)
    (hcw : isJsonWs c = false) (hcb : c ≠ ']') :
    parseJsonVal (f + 1) ('[' :: c :: Z) =
      (parseJsonElems f (c :: Z)).map (fun p => (JSValue.array p.1, p.2)) := by
  rw [parseJsonVal_bracket]
  rw [show skipJsonWs (c :: Z) = c :: Z from
    dropWhile_eq_self_of_head_char _ _ (fun c' hc' => by
      rw [List.head?_cons] at hc'; injection hc' with hc'; subst hc'; exact hcw)]
  split
  · rename_i r2 heq
    injection heq with h1 h2
    exact absurd h1 hcb
  · rfl

/-- One step of the element parser. -/
lemma parseJsonElems_succ (f : Nat) (l : List Char) :
    parseJsonElems (f + 1) l =
      match parseJsonVal f l with
      | none => none
      | some (v, rest) =>
        match skipJsonWs rest with
        | ',' :: rest2 => (parseJsonElems f rest2).map (fun p => (v :: p.1, p.2))
        | ']' :: rest2 => some ([v], rest2)
        | _ => none := rfl

/-- Conjunction extraction for Boolean and. -/
lemma bool_and_true {a b : Bool} (h : (a && b) = true) :
    a = true ∧ b = true := by
  rw [Bool.and_eq_true] at h
  exact h

mutual
/-- The recursive-descent parser inverts the serializer on JSON-safe
values, for any fuel at least the value's depth and any trailing context
that cannot extend a number literal. -/
theorem parse_stringify_val (v : JSValue) (s R : List Char) (f : Nat)
    (hsafe : jsonSafe v = true) (hser : jsonStringifyVal v = some s)
    (hfuel : jsonFuelVal v ≤ f) (hR : numberStops R) :
    parseJsonVal f (s ++ R) = some (v, R) := by
  cases f with
  | zero => exact absurd (Nat.le_trans (jsonFuelVal_pos v) hfuel) (by omega)
  | succ f =>
  cases v with
  | undef => simp [jsonSafe] at hsafe
  | func f0 => simp [jsonSafe] at hsafe
  | symbol n0 => simp [jsonSafe] at hsafe
  | bigint n0 => simp [jsonSafe] at hsafe
  | regexp so fl => simp [jsonSafe] at hsafe
  | jsNull =>
    simp only [jsonStringifyVal] at hser
    injection hser with hs
    subst hs
    rfl
  | boolean b =>
    cases b with
    | true =>
      simp only [jsonStringifyVal] at hser
      injection hser with hs
      subst hs
      rfl
    | false =>
      simp only [jsonStringifyVal] at hser
      injection hser with hs
      subst hs
      rfl
  | number i =>
    simp only [jsonStringifyVal] at hser
    injection hser with hs
    subst hs
    by_cases hi : i < 0
    · rw [show intToDecimal i = '-' :: natToDecimal i.natAbs from by
        rw [intToDecimal, if_pos hi]]
      rw [List.cons_append, parseJsonVal_minus]
      rw [show '-' :: (natToDecimal i.natAbs ++ R) = intToDecimal i ++ R from by
        rw [intToDecimal, if_pos hi, List.cons_append]]
      rw [parseJsonNumber_intToDecimal i R hR]
      rfl
    · rw [show intToDecimal i = natToDecimal i.toNat from by
        rw [intToDecimal, if_neg hi]]
      obtain ⟨hdig, hne2, -, -, -⟩ :=
        natToDigitsAux_spec i.toNat (i.toNat + 1) (Nat.lt_succ_self _)
      rcases hd : natToDigitsAux (i.toNat + 1) i.toNat [] with _ | ⟨d, ds⟩
      · exact absurd hd hne2
      · rw [natToDecimal, hd, List.cons_append, parseJsonVal_number_head f d _
          (by rw [hd] at hdig; exact hdig d (List.mem_cons_self _ _))]
        rw [show d :: (ds ++ R) = natToDecimal i.toNat ++ R from by
          rw [natToDecimal, hd, List.cons_append]]
        rw [show natToDecimal i.toNat = intToDecimal i from by
          rw [intToDecimal, if_neg hi]]
        rw [parseJsonNumber_intToDecimal i R hR]
        rfl
  | jsString s0 =>
    simp only [jsonStringifyVal] at hser
    injection hser with hs
    subst hs
    rw [quoteJsonString_eq, List.cons_append, parseJsonVal_quote]
    rw [show (jsonEncodeStr s0 ++ ['"']) ++ R = jsonEncodeStr s0 ++ '"' :: R from by
      simp]
    rw [parseStringBody_encode]
    rfl
  | array es =>
    simp only [jsonStringifyVal] at hser
    rcases hes : jsonStringifyElems es with _ | parts
    · rw [hes] at hser; exact Option.noConfusion hser
    · rw [hes] at hser
      simp only [Option.map_some'] at hser
      injection hser with hs
      subst hs
      cases es with
      | nil =>
        have hp : parts = [] := by
          rw [jsonStringifyElems] at hes
          injection hes with h
          exact h.symm
        subst hp
        rfl
      | cons v0 rest =>
        rw [jsonSafe, jsonSafeList] at hsafe
        obtain ⟨hsafe0, hsafeR⟩ := bool_and_true hsafe
        rw [stringifyElems_safe_cons v0 rest hsafe0] at hes
        rcases hv0 : jsonStringifyVal v0 with _ | p0 <;>
          rcases hrest : jsonStringifyElems rest with _ | ps <;>
          rw [hv0, hrest] at hes <;>
          try exact Option.noConfusion hes
        injection hes with hes
        subst hes
        obtain ⟨c0, t0, hp0shape, hcw, hcb⟩ := stringifyVal_head v0 p0 hv0
        rw [jsonFuelVal] at hfuel
        have hfe : jsonFuelElems (v0 :: rest) ≤ f := by omega
        obtain ⟨q, hq⟩ := joinComma_cons p0 ps
        rw [show '[' :: joinComma (p0 :: ps) ++ [']'] ++ R =
            '[' :: c0 :: (t0 ++ (q ++ ']' :: R)) from by
          rw [hq, hp0shape]; simp]
        rw [parseJsonVal_bracket_head f c0 _ hcw hcb]
        rw [show c0 :: (t0 ++ (q ++ ']' :: R)) =
            joinComma (p0 :: ps) ++ ']' :: R from by
          rw [hq, hp0shape]; simp]
        have hes' : jsonStringifyElems (v0 :: rest) = some (p0 :: ps) := by
          rw [stringifyElems_safe_cons v0 rest hsafe0, hv0, hrest]
        rw [parse_stringify_elems (v0 :: rest) (p0 :: ps) R f
          (List.cons_ne_nil _ _)
          (by rw [jsonSafeList, hsafe0, hsafeR]; rfl) hes' hfe]
        rfl
  | object fs =>
    simp only [jsonStringifyVal] at hser
    rcases hfs : jsonStringifyFields fs with _ | parts
    · rw [hfs] at hser; exact Option.noConfusion hser
    · rw [hfs] at hser
      simp only [Option.map_some'] at hser
      injection hser with hs
      subst hs
      rw [jsonSafe] at hsafe
      obtain ⟨hnd, hsfF⟩ := bool_and_true hsafe
      rcases fs with _ | ⟨⟨k, v0⟩, rest⟩
      · have hp : parts = [] := by
          rw [jsonStringifyFields] at hfs
          injection hfs with h
          exact h.symm
        subst hp
        rfl
      · rw [jsonSafeFields] at hsfF
        obtain ⟨hsafe0, hsafeR⟩ := bool_and_true hsfF
        rw [stringifyFields_safe_cons k v0 rest hsafe0] at hfs
        rcases hv0 : jsonStringifyVal v0 with _ | pv <;>
          rcases hrest : jsonStringifyFields rest with _ | ps <;>
          rw [hv0, hrest] at hfs <;>
          try exact Option.noConfusion hfs
        injection hfs with hfs
        subst hfs
        rw [jsonFuelVal] at hfuel
        have hff : jsonFuelFields ((k, v0) :: rest) ≤ f := by omega
        obtain ⟨q, hq⟩ := joinComma_cons (quoteJsonString k ++ ':' :: pv) ps
        rw [show Char.ofNat 123 ::
            joinComma ((quoteJsonString k ++ ':' :: pv) :: ps) ++
            [Char.ofNat 125] ++ R =
            Char.ofNat 123 :: '"' :: ((jsonEncodeStr k ++ ['"']) ++
              (':' :: pv ++ (q ++ Char.ofNat 125 :: R))) from by
          rw [hq, quoteJsonString_eq]; simp]
        rw [parseJsonVal_brace_quote]
        rw [show '"' :: ((jsonEncodeStr k ++ ['"']) ++
            (':' :: pv ++ (q ++ Char.ofNat 125 :: R))) =
            joinComma ((quoteJsonString k ++ ':' :: pv) :: ps) ++
              Char.ofNat 125 :: R from by
          rw [hq, quoteJsonString_eq]; simp]
        have hfs' : jsonStringifyFields ((k, v0) :: rest) =
            some ((quoteJsonString k ++ ':' :: pv) :: ps) := by
          rw [stringifyFields_safe_cons k v0 rest hsafe0, hv0, hrest]
        rw [parse_stringify_members ((k, v0) :: rest)
          ((quoteJsonString k ++ ':' :: pv) :: ps) R f
          (List.cons_ne_nil _ _)
          (by rw [jsonSafeFields, hsafe0, hsafeR]; rfl) hfs' hff]
        simp only [Option.map_some']
        rw [buildJsObject_eq _ hnd]

termination_by f
decreasing_by
  all_goals omega

/-- The element parser inverts the serializer on a nonempty JSON-safe
element list followed by the closing bracket. -/
theorem parse_stringify_elems (es : List JSValue) (parts : List (List Char))
    (R : List Char) (f : Nat) (hne : es ≠ [])
    (hsafe : jsonSafeList es = true)
    (hser : jsonStringifyElems es = some parts)
    (hfuel : jsonFuelElems es ≤ f) :
    parseJsonElems f (joinComma parts ++ ']' :: R) = some (es, R) := by
  cases es with
  | nil => exact absurd rfl hne
  | cons v0 rest =>
  cases f with
  | zero =>
    rw [jsonFuelElems] at hfuel
    exact absurd hfuel (by omega)
  | succ f =>
  rw [jsonSafeList] at hsafe
  obtain ⟨hsafe0, hsafeR⟩ := bool_and_true hsafe
  rw [stringifyElems_safe_cons v0 rest hsafe0] at hser
  rcases hv0 : jsonStringifyVal v0 with _ | p0 <;>
    rcases hrest : jsonStringifyElems rest with _ | ps <;>
    rw [hv0, hrest] at hser <;>
    try exact Option.noConfusion hser
  injection hser with hser
  subst hser
  rw [jsonFuelElems] at hfuel
  have hfv : jsonFuelVal v0 ≤ f := by omega
  have hfe : jsonFuelElems rest ≤ f := by omega
  cases rest with
  | nil =>
    have hps : ps = [] := by
      rw [jsonStringifyElems] at hrest
      injection hrest with h
      exact h.symm
    subst hps
    rw [show joinComma [p0] = p0 from rfl]
    rw [parseJsonElems_succ]
    rw [parse_stringify_val v0 p0 (']' :: R) f hsafe0 hv0 hfv
      (numberStops_cons _ _ (by decide) (by decide) (by decide) (by decide))]
    rfl
  | cons v1 rest' =>
    have hps : ps ≠ [] := by
      intro hcon
      subst hcon
      rw [stringifyElems_safe_cons v1 rest'
        (bool_and_true hsafeR).1] at hrest
      rcases hv1 : jsonStringifyVal v1 with _ | p1 <;>
        rcases hrest' : jsonStringifyElems rest' with _ | ps' <;>
        rw [hv1, hrest'] at hrest <;>
        try exact Option.noConfusion hrest
      injection hrest with hrest
      exact List.noConfusion hrest
    rcases ps with _ | ⟨p1, ps'⟩
    · exact absurd rfl hps
    rw [show joinComma (p0 :: p1 :: ps') = p0 ++ ',' :: joinComma (p1 :: ps')
      from rfl]
    rw [show (p0 ++ ',' :: joinComma (p1 :: ps')) ++ ']' :: R =
      p0 ++ ',' :: (joinComma (p1 :: ps') ++ ']' :: R) from by simp]
    rw [parseJsonElems_succ]
    rw [parse_stringify_val v0 p0 (',' :: (joinComma (p1 :: ps') ++ ']' :: R))
      f hsafe0 hv0 hfv
      (numberStops_cons _ _ (by decide) (by decide) (by decide) (by decide))]
    simp only []
    rw [show skipJsonWs (',' :: (joinComma (p1 :: ps') ++ ']' :: R)) =
      ',' :: (joinComma (p1 :: ps') ++ ']' :: R) from rfl]
    show Option.map (fun p => (v0 :: p.1, p.2))
      (parseJsonElems f (joinComma (p1 :: ps') ++ ']' :: R)) =
      some (v0 :: v1 :: rest', R)
    rw [parse_stringify_elems (v1 :: rest') (p1 :: ps') R f
      (List.cons_ne_nil _ _) hsafeR hrest hfe]
    rfl

termination_by f
decreasing_by
  all_goals omega

/-- The member parser inverts the serializer on a nonempty JSON-safe field
list followed by the closing brace, returning the fields in textual
order. -/
theorem parse_stringify_members (fs : List ((List Char) × JSValue))
    (parts : List (List Char)) (R : List Char) (f : Nat) (hne : fs ≠ [])
    (hsafe : jsonSafeFields fs = true)
    (hser : jsonStringifyFields fs = some parts)
    (hfuel : jsonFuelFields fs ≤ f) :
    parseJsonMembers f (joinComma parts ++ Char.ofNat 125 :: R) =
      some (fs, R) := by
  rcases fs with _ | ⟨⟨k, v0⟩, rest⟩
  · exact absurd rfl hne
  all_goals
  cases f with
  | zero =>
    rw [jsonFuelFields] at hfuel
    exact absurd hfuel (by omega)
  | succ f =>
  rw [jsonSafeFields] at hsafe
  obtain ⟨hsafe0, hsafeR⟩ := bool_and_true hsafe
  rw [stringifyFields_safe_cons k v0 rest hsafe0] at hser
  rcases hv0 : jsonStringifyVal v0 with _ | pv <;>
    rcases hrest : jsonStringifyFields rest with _ | ps <;>
    rw [hv0, hrest] at hser <;>
    try exact Option.noConfusion hser
  injection hser with hser
  subst hser
  rw [jsonFuelFields] at hfuel
  have hfv : jsonFuelVal v0 ≤ f := by omega
  have hff : jsonFuelFields rest ≤ f := by omega
  rcases rest with _ | ⟨⟨k2, v2⟩, rest'⟩
  · have hps : ps = [] := by
      rw [jsonStringifyFields] at hrest
      injection hrest with h
      exact h.symm
    subst hps
    rw [show joinComma [quoteJsonString k ++ ':' :: pv] =
      quoteJsonString k ++ ':' :: pv from rfl]
    rw [show (quoteJsonString k ++ ':' :: pv) ++ Char.ofNat 125 :: R =
      '"' :: (jsonEncodeStr k ++ '"' ::
        (':' :: (pv ++ Char.ofNat 125 :: R))) from by
      rw [quoteJsonString_eq]; simp]
    rw [parseJsonMembers_quote]
    rw [parseStringBody_encode k (':' :: (pv ++ Char.ofNat 125 :: R))]
    simp only []
    rw [show skipJsonWs (':' :: (pv ++ Char.ofNat 125 :: R)) =
      ':' :: (pv ++ Char.ofNat 125 :: R) from rfl]
    show (match parseJsonVal f (pv ++ Char.ofNat 125 :: R) with
      | none => none
      | some (v, rest4) =>
        match skipJsonWs rest4 with
        | ',' :: rest5 =>
          (parseJsonMembers f rest5).map (fun p => ((k, v) :: p.1, p.2))
        | c :: rest5 =>
          if c = Char.ofNat 125 then some ([(k, v)], rest5) else none
        | [] => none) = some ([(k, v0)], R)
    rw [parse_stringify_val v0 pv (Char.ofNat 125 :: R) f hsafe0 hv0 hfv
      (numberStops_cons _ _ (by decide) (by decide) (by decide) (by decide))]
    rfl
  · have hps : ps ≠ [] := by
      intro hcon
      subst hcon
      rw [stringifyFields_safe_cons k2 v2 rest'
        (bool_and_true hsafeR).1] at hrest
      rcases hv2 : jsonStringifyVal v2 with _ | pw <;>
        rcases hrest' : jsonStringifyFields rest' with _ | ps' <;>
        rw [hv2, hrest'] at hrest <;>
        try exact Option.noConfusion hrest
      injection hrest with hrest
      exact List.noConfusion hrest
    rcases ps with _ | ⟨p1, ps'⟩
    · exact absurd rfl hps
    rw [show joinComma ((quoteJsonString k ++ ':' :: pv) :: p1 :: ps') =
      (quoteJsonString k ++ ':' :: pv) ++ ',' :: joinComma (p1 :: ps')
      from rfl]
    rw [show ((quoteJsonString k ++ ':' :: pv) ++ ',' :: joinComma (p1 :: ps'))
        ++ Char.ofNat 125 :: R =
      '"' :: (jsonEncodeStr k ++ '"' :: (':' :: (pv ++ ',' ::
        (joinComma (p1 :: ps') ++ Char.ofNat 125 :: R)))) from by
      rw [quoteJsonString_eq]; simp]
    rw [parseJsonMembers_quote]
    rw [parseStringBody_encode k (':' :: (pv ++ ',' ::
      (joinComma (p1 :: ps') ++ Char.ofNat 125 :: R)))]
    simp only []
    rw [show skipJsonWs (':' :: (pv ++ ',' ::
      (joinComma (p1 :: ps') ++ Char.ofNat 125 :: R))) =
      ':' :: (pv ++ ',' ::
        (joinComma (p1 :: ps') ++ Char.ofNat 125 :: R)) from rfl]
    show (match parseJsonVal f (pv ++ ',' ::
        (joinComma (p1 :: ps') ++ Char.ofNat 125 :: R)) with
      | none => none
      | some (v, rest4) =>
        match skipJsonWs rest4 with
        | ',' :: rest5 =>
          (parseJsonMembers f rest5).map (fun p => ((k, v) :: p.1, p.2))
        | c :: rest5 =>
          if c = Char.ofNat 125 then some ([(k, v)], rest5) else none
        | [] => none) = some ((k, v0) :: (k2, v2) :: rest', R)
    rw [parse_stringify_val v0 pv (',' ::
      (joinComma (p1 :: ps') ++ Char.ofNat 125 :: R)) f hsafe0 hv0 hfv
      (numberStops_cons _ _ (by decide) (by decide) (by decide) (by decide))]
    show (match skipJsonWs (',' ::
        (joinComma (p1 :: ps') ++ Char.ofNat 125 :: R)) with
      | ',' :: rest5 =>
        (parseJsonMembers f rest5).map (fun p => ((k, v0) :: p.1, p.2))
      | c :: rest5 =>
        if c = Char.ofNat 125 then some ([(k, v0)], rest5) else none
      | [] => none) = some ((k, v0) :: (k2, v2) :: rest', R)
    rw [show skipJsonWs (',' ::
      (joinComma (p1 :: ps') ++ Char.ofNat 125 :: R)) =
      ',' :: (joinComma (p1 :: ps') ++ Char.ofNat 125 :: R) from rfl]
    show Option.map (fun p => ((k, v0) :: p.1, p.2))
      (parseJsonMembers f (joinComma (p1 :: ps') ++ Char.ofNat 125 :: R)) =
      some ((k, v0) :: (k2, v2) :: rest', R)
    rw [parse_stringify_members ((k2, v2) :: rest') (p1 :: ps') R f
      (List.cons_ne_nil _ _) hsafeR hrest hff]
    rfl
termination_by f
decreasing_by
  all_goals omega
end

/-- Backslash escaping is the identity on backslash-free text. -/
lemma escBackslash_eq_self (l : List Char) (h : Char.ofNat 92 ∉ l) :
    escBackslash l = l := by
  induction l with
  | nil => rfl
  | cons c t ih =>
    rw [escBackslash, List.foldr_cons]
    rw [if_neg (fun hc => h (by rw [← hc]; exact List.mem_cons_self c t))]
    rw [show List.foldr (fun c acc =>
      if c = Char.ofNat 92 then Char.ofNat 92 :: Char.ofNat 92 :: acc
      else c :: acc) [] t = escBackslash t from rfl]
    rw [ih (fun hc => h (List.mem_cons_of_mem c hc))]

/-- Backtick escaping is the identity on backtick-free text. -/
lemma escBacktick_eq_self (l : List Char) (h : Char.ofNat 96 ∉ l) :
    escBacktick l = l := by
  induction l with
  | nil => rfl
  | cons c t ih =>
    rw [escBacktick, List.foldr_cons]
    rw [if_neg (fun hc => h (by rw [← hc]; exact List.mem_cons_self c t))]
    rw [show List.foldr (fun c acc =>
      if c = Char.ofNat 96 then Char.ofNat 92 :: Char.ofNat 96 :: acc
      else c :: acc) [] t = escBacktick t from rfl]
    rw [ih (fun hc => h (List.mem_cons_of_mem c hc))]

/-- U+2028 escaping is the identity when the character is absent. -/
lemma escLineSep_eq_self (l : List Char) (h : Char.ofNat 0x2028 ∉ l) :
    escLineSep l = l := by
  induction l with
  | nil => rfl
  | cons c t ih =>
    rw [escLineSep, List.foldr_cons]
    rw [if_neg (fun hc => h (by rw [← hc]; exact List.mem_cons_self c t))]
    rw [show List.foldr (fun c acc =>
      if c = Char.ofNat 0x2028 then
        Char.ofNat 92 :: 'u' :: '2' :: '0' :: '2' :: '8' :: acc
      else c :: acc) [] t = escLineSep t from rfl]
    rw [ih (fun hc => h (List.mem_cons_of_mem c hc))]

/-- U+2029 escaping is the identity when the character is absent. -/
lemma escParaSep_eq_self (l : List Char) (h : Char.ofNat 0x2029 ∉ l) :
    escParaSep l = l := by
  induction l with
  | nil => rfl
  | cons c t ih =>
    rw [escParaSep, List.foldr_cons]
    rw [if_neg (fun hc => h (by rw [← hc]; exact List.mem_cons_self c t))]
    rw [show List.foldr (fun c acc =>
      if c = Char.ofNat 0x2029 then
        Char.ofNat 92 :: 'u' :: '2' :: '0' :: '2' :: '9' :: acc
      else c :: acc) [] t = escParaSep t from rfl]
    rw [ih (fun hc => h (List.mem_cons_of_mem c hc))]

/-- `${`-escaping is the identity on dollar-free text. -/
lemma escDollarBrace_eq_self (l : List Char) (h : '$' ∉ l) :
    escDollarBrace l = l := by
  induction l using escDollarBrace.induct with
  | case1 c1 c2 rest hpair ih =>
    exact absurd hpair.1 (fun hc => h (by rw [← hc]; exact List.mem_cons_self c1 _))
  | case2 c1 c2 rest hpair ih =>
    rw [escDollarBrace.eq_1, if_neg hpair,
      ih (fun hc => h (List.mem_cons_of_mem c1 hc))]
  | case3 l hshape =>
    rcases l with _ | ⟨c1, _ | ⟨c2, rest⟩⟩
    · rfl
    · rfl
    · exact (hshape c1 c2 rest rfl).elim

/-- `</script>`-escaping is the identity on text without `<`. -/
lemma escScriptClose_eq_self (l : List Char) (h : '<' ∉ l) :
    escScriptClose l = l := by
  induction l using escScriptClose.induct with
  | case1 c1 c2 c3 c4 c5 c6 c7 c8 c9 rest hpat ih =>
    exact absurd hpat.1 (fun hc => h (by rw [← hc]; exact List.mem_cons_self c1 _))
  | case2 c1 c2 c3 c4 c5 c6 c7 c8 c9 rest hpat ih =>
    rw [escScriptClose.eq_1, if_neg hpat,
      ih (fun hc => h (List.mem_cons_of_mem c1 hc))]
  | case3 l hshape =>
    rcases l with _ | ⟨c1, _ | ⟨c2, _ | ⟨c3, _ | ⟨c4, _ | ⟨c5, _ | ⟨c6,
      _ | ⟨c7, _ | ⟨c8, _ | ⟨c9, rest⟩⟩⟩⟩⟩⟩⟩⟩⟩
    · rfl
    · rfl
    · rfl
    · rfl
    · rfl
    · rfl
    · rfl
    · rfl
    · rfl
    · exact (hshape c1 c2 c3 c4 c5 c6 c7 c8 c9 rest rfl).elim

/-- `<!--`-escaping is the identity on text without `<`. -/
lemma escCommentOpen_eq_self (l : List Char) (h : '<' ∉ l) :
    escCommentOpen l = l := by
  induction l using escCommentOpen.induct with
  | case1 c1 c2 c3 c4 rest hpat ih =>
    exact absurd hpat.1 (fun hc => h (by rw [← hc]; exact List.mem_cons_self c1 _))
  | case2 c1 c2 c3 c4 rest hpat ih =>
    rw [escCommentOpen.eq_1, if_neg hpat,
      ih (fun hc => h (List.mem_cons_of_mem c1 hc))]
  | case3 l hshape =>
    rcases l with _ | ⟨c1, _ | ⟨c2, _ | ⟨c3, _ | ⟨c4, rest⟩⟩⟩⟩
    · rfl
    · rfl
    · rfl
    · rfl
    · exact (hshape c1 c2 c3 c4 rest rfl).elim

/-- On text free of every escaped hazard the whole template escaping is the
identity. -/
lemma escapeTemplate_eq_self (s : List Char) (h92 : Char.ofNat 92 ∉ s)
    (h96 : Char.ofNat 96 ∉ s) (hd : '$' ∉ s) (hlt : '<' ∉ s)
    (h28 : Char.ofNat 0x2028 ∉ s) (h29 : Char.ofNat 0x2029 ∉ s) :
    escapeTemplate s = s := by
  rw [escapeTemplate, escBackslash_eq_self s h92, escBacktick_eq_self s h96,
    escDollarBrace_eq_self s hd, escScriptClose_eq_self s hlt,
    escCommentOpen_eq_self s hlt, escLineSep_eq_self s h28,
    escParaSep_eq_self s h29]

/-- When serialization succeeds, `escapeForServiceWorker` is the template
escaping of the serialized text. -/
lemma escapeForServiceWorker_eq (v : JSValue) (s : List Char)
    (hser : jsonStringifyVal v = some s) :
    escapeForServiceWorker v = escapeTemplate s := by
  cases v <;>
    first
    | (rw [jsonStringifyVal] at hser; exact Option.noConfusion hser)
    | (simp only [escapeForServiceWorker]; rw [hser])
    | (simp only [escapeForServiceWorker]
       rcases hser2 : jsonStringifyVal _ with _ | s2
       · rw [hser2] at hser; exact Option.noConfusion hser
       · rw [hser2] at hser
         injection hser with hser
         rw [hser])

/-- Values have positive size. -/
lemma jsvalue_sizeOf_pos (v : JSValue) : 1 ≤ sizeOf v := by
  cases v <;> simp <;> omega

/-- The parser fuel needed for a serialized value is bounded by the length
of its serialization (stated with an explicit size bound for structural
induction). -/
lemma jsonFuel_bound_aux (n : Nat) :
    (∀ v s, sizeOf v ≤ n → jsonSafe v = true → jsonStringifyVal v = some s →
      jsonFuelVal v ≤ s.length) ∧
    (∀ es parts, sizeOf es ≤ n → jsonSafeList es = true →
      jsonStringifyElems es = some parts →
      jsonFuelElems es ≤ (joinComma parts).length + 1) ∧
    (∀ fs parts, sizeOf fs ≤ n → jsonSafeFields fs = true →
      jsonStringifyFields fs = some parts →
      jsonFuelFields fs ≤ (joinComma parts).length + 1) := by
  induction n with
  | zero =>
    refine ⟨fun v s hsz _ _ => absurd (Nat.le_trans (jsvalue_sizeOf_pos v) hsz)
      (by omega), fun es parts hsz _ _ => ?_, fun fs parts hsz _ _ => ?_⟩
    · cases es <;> simp at hsz
    · cases fs <;> simp at hsz
  | succ n ih =>
    obtain ⟨ihv, ihe, ihf⟩ := ih
    refine ⟨?_, ?_, ?_⟩
    · intro v s hsz hsafe hser
      obtain ⟨c, t, hsshape, -, -⟩ := stringifyVal_head v s hser
      cases v with
      | undef => simp [jsonSafe] at hsafe
      | func f0 => simp [jsonSafe] at hsafe
      | symbol n0 => simp [jsonSafe] at hsafe
      | bigint n0 => simp [jsonSafe] at hsafe
      | regexp so fl => simp [jsonSafe] at hsafe
      | jsNull => subst hsshape; simp [jsonFuelVal]
      | boolean b => subst hsshape; simp [jsonFuelVal]
      | number i => subst hsshape; simp [jsonFuelVal]
      | jsString s0 => subst hsshape; simp [jsonFuelVal]
      | array es =>
        simp only [jsonStringifyVal] at hser
        rcases hes : jsonStringifyElems es with _ | parts
        · rw [hes] at hser; exact Option.noConfusion hser
        · rw [hes] at hser
          simp only [Option.map_some'] at hser
          injection hser with hs
          subst hs
          rw [jsonSafe] at hsafe
          have hbound := ihe es parts
            (by simp only [JSValue.array.sizeOf_spec] at hsz; omega) hsafe hes
          rw [jsonFuelVal]
          simp only [List.cons_append, List.length_cons, List.length_append,
            List.length_singleton]
          omega
      | object fs =>
        simp only [jsonStringifyVal] at hser
        rcases hfs : jsonStringifyFields fs with _ | parts
        · rw [hfs] at hser; exact Option.noConfusion hser
        · rw [hfs] at hser
          simp only [Option.map_some'] at hser
          injection hser with hs
          subst hs
          rw [jsonSafe] at hsafe
          obtain ⟨-, hsfF⟩ := bool_and_true hsafe
          have hbound := ihf fs parts
            (by simp only [JSValue.object.sizeOf_spec] at hsz; omega) hsfF hfs
          rw [jsonFuelVal]
          simp only [List.cons_append, List.length_cons, List.length_append,
            List.length_singleton]
          omega
    · intro es parts hsz hsafe hser
      cases es with
      | nil =>
        have hp : parts = [] := by
          rw [jsonStringifyElems] at hser
          injection hser with h
          exact h.symm
        subst hp
        simp [jsonFuelElems, joinComma]
      | cons v0 rest =>
        rw [jsonSafeList] at hsafe
        obtain ⟨hsafe0, hsafeR⟩ := bool_and_true hsafe
        rw [stringifyElems_safe_cons v0 rest hsafe0] at hser
        rcases hv0 : jsonStringifyVal v0 with _ | p0 <;>
          rcases hrest : jsonStringifyElems rest with _ | ps <;>
          rw [hv0, hrest] at hser <;>
          try exact Option.noConfusion hser
        injection hser with hser
        subst hser
        obtain ⟨c0, t0, hp0shape, -, -⟩ := stringifyVal_head v0 p0 hv0
        have hp0len : 1 ≤ p0.length := by rw [hp0shape]; simp
        have hv0b := ihv v0 p0
          (by simp only [List.cons.sizeOf_spec] at hsz; omega) hsafe0 hv0
        have hrb := ihe rest ps
          (by simp only [List.cons.sizeOf_spec] at hsz; omega) hsafeR hrest
        rw [jsonFuelElems]
        cases ps with
        | nil =>
          rw [show joinComma [p0] = p0 from rfl]
          rw [show joinComma ([] : List (List Char)) = [] from rfl] at hrb
          simp only [List.length_nil] at hrb
          omega
        | cons p1 ps' =>
          rw [show joinComma (p0 :: p1 :: ps') =
            p0 ++ ',' :: joinComma (p1 :: ps') from rfl]
          simp only [List.length_append, List.length_cons]
          omega
    · intro fs parts hsz hsafe hser
      cases fs with
      | nil =>
        have hp : parts = [] := by
          rw [jsonStringifyFields] at hser
          injection hser with h
          exact h.symm
        subst hp
        simp [jsonFuelFields, joinComma]
      | cons p rest =>
        obtain ⟨k, v0⟩ := p
        rw [jsonSafeFields] at hsafe
        obtain ⟨hsafe0, hsafeR⟩ := bool_and_true hsafe
        rw [stringifyFields_safe_cons k v0 rest hsafe0] at hser
        rcases hv0 : jsonStringifyVal v0 with _ | pv <;>
          rcases hrest : jsonStringifyFields rest with _ | ps <;>
          rw [hv0, hrest] at hser <;>
          try exact Option.noConfusion hser
        injection hser with hser
        subst hser
        have hquote : 2 ≤ (quoteJsonString k).length := by
          rw [quoteJsonString_eq]
          simp
        have hv0b := ihv v0 pv
          (by simp only [List.cons.sizeOf_spec, Prod.mk.sizeOf_spec] at hsz
              omega) hsafe0 hv0
        have hrb := ihf rest ps
          (by simp only [List.cons.sizeOf_spec, Prod.mk.sizeOf_spec] at hsz
              omega) hsafeR hrest
        rw [jsonFuelFields]
        cases ps with
        | nil =>
          rw [show joinComma [quoteJsonString k ++ ':' :: pv] =
            quoteJsonString k ++ ':' :: pv from rfl]
          rw [show joinComma ([] : List (List Char)) = [] from rfl] at hrb
          simp only [List.length_nil] at hrb
          simp only [List.length_append, List.length_cons]
          omega
        | cons p1 ps' =>
          rw [show joinComma ((quoteJsonString k ++ ':' :: pv) :: p1 :: ps') =
            (quoteJsonString k ++ ':' :: pv) ++ ',' :: joinComma (p1 :: ps')
            from rfl]
          simp only [List.length_append, List.length_cons]
          omega

/-- C4 counterexample: `escapeForServiceWorker` does not round-trip every
JSON-representable value — a string containing a backtick is serialized to
valid JSON, but the escaper then inserts a backslash-backtick sequence,
which is not a valid JSON escape, so `JSON.parse` rejects the result
entirely. -/
theorem escapeForServiceWorker_not_roundtrip :
    jsonParse (escapeForServiceWorker (.jsString [Char.ofNat 96])) ≠
      some (.jsString [Char.ofNat 96]) := by
  intro h
  rw [show jsonParse (escapeForServiceWorker (.jsString [Char.ofNat 96])) =
    none from rfl] at h
  exact Option.noConfusion h

/-- C4 (amended): for every JSON-safe value (no `undefined`, function,
symbol, BigInt or compiled pattern anywhere, and pairwise-distinct keys in
every object) whose serialization contains no backslash, backtick, dollar
sign, `<`, U+2028 or U+2029 character,
`JSON.parse(escapeForServiceWorker(v))` recovers `v` exactly; and every
function and every symbol input yields the literal text `null`. -/
theorem escapeForServiceWorker_roundtrip (v : JSValue) (s : List Char)
    (hsafe : jsonSafe v = true) (hser : jsonStringifyVal v = some s)
    (h92 : Char.ofNat 92 ∉ s) (h96 : Char.ofNat 96 ∉ s)
    (hdollar : '$' ∉ s) (hlt : '<' ∉ s)
    (h28 : Char.ofNat 0x2028 ∉ s) (h29 : Char.ofNat 0x2029 ∉ s) :
    jsonParse (escapeForServiceWorker v) = some v ∧
    (∀ t, escapeForServiceWorker (.func t) = cs "null") ∧
    (∀ d, escapeForServiceWorker (.symbol d) = cs "null") := by
  refine ⟨?_, fun t => rfl, fun d => rfl⟩
  rw [escapeForServiceWorker_eq v s hser,
    escapeTemplate_eq_self s h92 h96 hdollar hlt h28 h29]
  have hfb := (jsonFuel_bound_aux (sizeOf v)).1 v s (Nat.le_refl _) hsafe hser
  have hp := parse_stringify_val v s [] (s.length + 1) hsafe hser (by omega)
    numberStops_nil
  rw [List.append_nil] at hp
  simp only [jsonParse]
  rw [hp]
  rfl

/-- A concrete JSON-safe value exercising objects, arrays, numbers,
strings, booleans and null. -/
def sampleJsonValue : JSValue :=
  .object [(cs "a", .number (-12)),
    (cs "b", .array [.jsNull, .boolean true, .jsString (cs "hi")]),
    (cs "c", .object [])]

/-- Its serialization. -/
def sampleJsonText : List Char :=
  cs "\x7b\"a\":-12,\"b\":[null,true,\"hi\"],\"c\":\x7b\x7d\x7d"

/-- C4 witness: the amended round-trip theorem applied at a concrete
value. -/
theorem escapeForServiceWorker_roundtrip_witness :
    (jsonSafe sampleJsonValue = true ∧
      jsonStringifyVal sampleJsonValue = some sampleJsonText ∧
      Char.ofNat 92 ∉ sampleJsonText ∧ Char.ofNat 96 ∉ sampleJsonText ∧
      '$' ∉ sampleJsonText ∧ '<' ∉ sampleJsonText ∧
      Char.ofNat 0x2028 ∉ sampleJsonText ∧
      Char.ofNat 0x2029 ∉ sampleJsonText) ∧
    jsonParse (escapeForServiceWorker sampleJsonValue) =
      some sampleJsonValue :=
  ⟨⟨rfl, rfl, by decide, by decide, by decide, by decide, by decide,
    by decide⟩,
   (escapeForServiceWorker_roundtrip sampleJsonValue sampleJsonText rfl rfl
     (by decide) (by decide) (by decide) (by decide) (by decide)
     (by decide)).1⟩

-- =============================================================================
-- § ManifestGenerator (src/adapter/manifest-generator.ts)
-- =============================================================================

/-- Split a path on `/` (keeping empty segments, as `split('/')` does). -/
def splitSlashAux : List Char → List Char → List (List Char)
  | [], cur => [cur.reverse]
  | '/' :: rest, cur => cur.reverse :: splitSlashAux rest []
  | c :: rest, cur => splitSlashAux rest (c :: cur)

/-- Split a path into `/`-separated segments. -/
def splitSlash (l : List Char) : List (List Char) := splitSlashAux l []

/-- The segment resolution of Node's `path.normalize`: empty and `.`
segments vanish, `..` pops the previous real segment, and when
`allowAbove` is set (relative paths) unmatched `..` segments survive at
the front. -/
def normSegs (allowAbove : Bool) : List (List Char) → List (List Char) →
    List (List Char)
  | [], stack => stack.reverse
  | seg :: rest, stack =>
    if seg = [] ∨ seg = ['.'] then normSegs allowAbove rest stack
    else if seg = ['.', '.'] then
      match stack with
      | top :: stack' =>
        if top = ['.', '.'] then
          if allowAbove then normSegs allowAbove rest (seg :: top :: stack')
          else normSegs allowAbove rest (top :: stack')
        else normSegs allowAbove rest stack'
      | [] =>
        if allowAbove then normSegs allowAbove rest [seg]
        else normSegs allowAbove rest []
    else normSegs allowAbove rest (seg :: stack)

/-- Join segments with `/`. -/
def joinSegs (segs : List (List Char)) : List Char :=
  List.intercalate ['/'] segs

/-- Node's POSIX `path.normalize`. -/
def pathNormalize (p : List Char) : List Char :=
  if p = [] then ['.']
  else
    let isAbs := p.head? = some '/'
    let trail := p.getLast? = some '/'
    let body := joinSegs (normSegs (!isAbs) (splitSlash p) [])
    if body = [] then
      if isAbs then ['/'] else if trail then ['.', '/'] else ['.']
    else
      let body1 := if trail then body ++ ['/'] else body
      if isAbs then '/' :: body1 else body1

/-- Node's `path.join` with one argument. -/
def pathJoin1 (p : List Char) : List Char :=
  if p = [] then ['.'] else pathNormalize p

/-- Node's `path.join` with two arguments. -/
def pathJoin2 (a b : List Char) : List Char :=
  let joined := if a = [] then b else if b = [] then a else a ++ '/' :: b
  if joined = [] then ['.'] else pathNormalize joined

/-- `isPathWithinProject` from `src/adapter/manifest-generator.ts`:
normalize both paths with `join` and compare by string prefix. -/
def isPathWithinProject (filePath projectRoot : List Char) : Bool :=
  List.isPrefixOf (pathJoin1 projectRoot) (pathJoin1 filePath)

/-- ASCII lowercasing (enough for the `/i` regex flags in the source). -/
def asciiLower (c : Char) : Char :=
  if 'A' ≤ c ∧ c ≤ 'Z' then Char.ofNat (c.toNat + 32) else c

/-- Lowercase a string. -/
def toLowerList (l : List Char) : List Char := l.map asciiLower

/-- `hasPathTraversal` from `src/utils/security.ts`: any of the six
traversal patterns occurs (the case-insensitive ones are matched on the
lowercased input). -/
def hasPathTraversal (l : List Char) : Bool :=
  jsIncludes (cs "..") l ||
  jsIncludes ('.' :: '.' :: [Char.ofNat 92]) l ||
  jsIncludes (cs "%2e%2e") (toLowerList l) ||
  jsIncludes (cs "%252e%252e") (toLowerList l) ||
  jsIncludes (cs ".%2e") (toLowerList l) ||
  jsIncludes (cs "%2e.") (toLowerList l)

/-- Little-endian byte rendering of a number. -/
def natToLEBytes : Nat → Nat → List Nat
  | _, 0 => []
  | n, k + 1 => (n % 256) :: natToLEBytes (n / 256) k

/-- MD5 padding: a 0x80 byte, zeros to 56 mod 64, and the bit length in 8
little-endian bytes. -/
def md5Pad (msg : List Nat) : List Nat :=
  let len := msg.length
  let r := (len + 1) % 64
  let z := (56 + 64 - r) % 64
  msg ++ 0x80 :: (List.replicate z 0 ++ natToLEBytes (len * 8 % 2 ^ 64) 8)

/-- Little-endian 32-bit words of a byte stream. -/
def leWords : List Nat → List Nat
  | b0 :: b1 :: b2 :: b3 :: rest =>
    (b0 + b1 * 256 + b2 * 65536 + b3 * 16777216) :: leWords rest
  | _ => []

/-- Split a word stream into 16-word blocks (fuelled). -/
def blocks16 : Nat → List Nat → List (List Nat)
  | 0, _ => []
  | _, [] => []
  | fuel + 1, ws => ws.take 16 :: blocks16 fuel (ws.drop 16)

/-- 32-bit left rotation. -/
def rotl32 (x r : Nat) : Nat :=
  ((x * 2 ^ r) % 2 ^ 32 + x / 2 ^ (32 - r)) % 2 ^ 32

/-- The 64 MD5 sine constants. -/
def md5K : List Nat :=
  [0xd76aa478, 0xe8c7b756, 0x242070db, 0xc1bdceee,
   0xf57c0faf, 0x4787c62a, 0xa8304613, 0xfd469501,
   0x698098d8, 0x8b44f7af, 0xffff5bb1, 0x895cd7be,
   0x6b901122, 0xfd987193, 0xa679438e, 0x49b40821,
   0xf61e2562, 0xc040b340, 0x265e5a51, 0xe9b6c7aa,
   0xd62f105d, 0x02441453, 0xd8a1e681, 0xe7d3fbc8,
   0x21e1cde6, 0xc33707d6, 0xf4d50d87, 0x455a14ed,
   0xa9e3e905, 0xfcefa3f8, 0x676f02d9, 0x8d2a4c8a,
   0xfffa3942, 0x8771f681, 0x6d9d6122, 0xfde5380c,
   0xa4beea44, 0x4bdecfa9, 0xf6bb4b60, 0xbebfbc70,
   0x289b7ec6, 0xeaa127fa, 0xd4ef3085, 0x04881d05,
   0xd9d4d039, 0xe6db99e5, 0x1fa27cf8, 0xc4ac5665,
   0xf4292244, 0x432aff97, 0xab9423a7, 0xfc93a039,
   0x655b59c3, 0x8f0ccc92, 0xffeff47d, 0x85845dd1,
   0x6fa87e4f, 0xfe2ce6e0, 0xa3014314, 0x4e0811a1,
   0xf7537e82, 0xbd3af235, 0x2ad7d2bb, 0xeb86d391]

/-- The 64 MD5 per-round rotation amounts. -/
def md5S : List Nat :=
  [7, 12, 17, 22, 7, 12, 17, 22, 7, 12, 17, 22, 7, 12, 17, 22,
   5, 9, 14, 20, 5, 9, 14, 20, 5, 9, 14, 20, 5, 9, 14, 20,
   4, 11, 16, 23, 4, 11, 16, 23, 4, 11, 16, 23, 4, 11, 16, 23,
   6, 10, 15, 21, 6, 10, 15, 21, 6, 10, 15, 21, 6, 10, 15, 21]

/-- The MD5 round function for round `i`. -/
def md5F (i b c d : Nat) : Nat :=
  if i < 16 then Nat.lor (Nat.land b c) (Nat.land (0xffffffff - b) d)
  else if i < 32 then Nat.lor (Nat.land d b) (Nat.land (0xffffffff - d) c)
  else if i < 48 then Nat.xor b (Nat.xor c d)
  else Nat.xor c (Nat.lor b (0xffffffff - d))

/-- The MD5 message index for round `i`. -/
def md5G (i : Nat) : Nat :=
  if i < 16 then i
  else if i < 32 then (5 * i + 1) % 16
  else if i < 48 then (3 * i + 5) % 16
  else (7 * i) % 16

/-- One MD5 round. -/
def md5Round (M : List Nat) (st : Nat × Nat × Nat × Nat) (i : Nat) :
    Nat × Nat × Nat × Nat :=
  let a := st.1
  let b := st.2.1
  let c := st.2.2.1
  let d := st.2.2.2
  let f := (md5F i b c d + a + md5K.getD i 0 + M.getD (md5G i) 0) % 2 ^ 32
  (d, (b + rotl32 f (md5S.getD i 0)) % 2 ^ 32, b, c)

/-- One 512-bit MD5 block. -/
def md5Block (st : Nat × Nat × Nat × Nat) (M : List Nat) :
    Nat × Nat × Nat × Nat :=
  let r := (List.range 64).foldl (md5Round M) st
  ((st.1 + r.1) % 2 ^ 32, (st.2.1 + r.2.1) % 2 ^ 32,
   (st.2.2.1 + r.2.2.1) % 2 ^ 32, (st.2.2.2 + r.2.2.2) % 2 ^ 32)

/-- The MD5 digest (16 bytes) of a byte stream. -/
def md5Digest (msg : List Nat) : List Nat :=
  let ws := leWords (md5Pad msg)
  let bls := blocks16 (ws.length + 1) ws
  let r := bls.foldl md5Block
    (0x67452301, 0xefcdab89, 0x98badcfe, 0x10325476)
  natToLEBytes r.1 4 ++ natToLEBytes r.2.1 4 ++
    natToLEBytes r.2.2.1 4 ++ natToLEBytes r.2.2.2 4

/-- Two lowercase hex digits of a byte. -/
def byteToHex (b : Nat) : List Char := [hexDigit (b / 16), hexDigit (b % 16)]

/-- The lowercase hex MD5 digest, as `digest('hex')` renders it. -/
def md5Hex (msg : List Nat) : List Char := (md5Digest msg).flatMap byteToHex

/-- A precache manifest entry (`revision: string | null`). -/
structure PrecacheEntry where
  url : List Char
  revision : Option (List Char)
deriving Repr, DecidableEq

/-- A pure snapshot of the file-system interactions the generator
performs: reading a file's bytes, recursively listing a directory
(`globby("**/*")`; `none` models a missing directory or a listing error),
and the `Date.now().toString()` bytes the revision fallback would hash. -/
structure FSModel where
  readFile : List Char → Option (List Nat)
  listDir : List Char → Option (List (List Char))
  timestamp : List Nat

/-- A build-exclusion pattern: a glob string or a compiled pattern
(modelled by its match function). -/
inductive ExcludeSpec where
  | strPat (pattern : List Char)
  | rePat (test : List Char → Bool)

/-- `ManifestGeneratorOptions` from the source. -/
structure ManifestGeneratorOptions where
  buildDir : List Char
  publicDir : List Char
  basePath : List Char
  publicExcludes : List (List Char)
  buildExcludes : List ExcludeSpec
  additionalManifestEntries : List PrecacheEntry
  modifyURLPrefix : List ((List Char) × (List Char))
  projectRoot : List Char

/-- Glob matching after the source's glob-to-regex conversion: `*` matches
any run, `?` any single character, everything else literally, anchored at
both ends (fuelled; pattern+input length suffices). -/
def globMatchAux : Nat → List Char → List Char → Bool
  | 0, _, _ => false
  | _ + 1, [], s => s.isEmpty
  | fuel + 1, '*' :: ps, s =>
    globMatchAux fuel ps s ||
      (match s with
       | [] => false
       | _ :: s' => globMatchAux fuel ('*' :: ps) s')
  | fuel + 1, '?' :: ps, s =>
    (match s with
     | [] => false
     | _ :: s' => globMatchAux fuel ps s')
  | fuel + 1, p :: ps, s =>
    (match s with
     | [] => false
     | c :: s' => p == c && globMatchAux fuel ps s')

/-- Anchored glob matching. -/
def globMatch (pat s : List Char) : Bool :=
  globMatchAux (pat.length + s.length + 1) pat s

/-- `matchesExclusion` from the source. -/
def matchesExclusion (value : List Char) (patterns : List ExcludeSpec) :
    Bool :=
  patterns.any fun p =>
    match p with
    | .strPat g => globMatch g value
    | .rePat t => t value

/-- A lowercase hex digit or decimal digit. -/
def isHexLowerDigit (c : Char) : Bool :=
  ('0' ≤ c && c ≤ '9') || ('a' ≤ c && c ≤ 'f')

/-- The extension alternatives of the content-hash pattern. -/
def hashExts : List (List Char) :=
  [cs "js", cs "css", cs "woff", cs "woff2", cs "ttf", cs "eot", cs "svg",
   cs "png", cs "jpg", cs "jpeg", cs "gif", cs "webp", cs "avif"]

/-- Whether `\.[a-f0-9]{8,}\.(js|...)$/i` matches starting at this suffix
and covering it entirely. -/
def hashPatternAt : List Char → Bool
  | '.' :: rest =>
    let run := rest.takeWhile (fun c => isHexLowerDigit (asciiLower c))
    decide (8 ≤ run.length) &&
      (match rest.dropWhile (fun c => isHexLowerDigit (asciiLower c)) with
       | '.' :: ext => hashExts.contains (toLowerList ext)
       | _ => false)
  | _ => false

/-- `hashPattern.test(url)`. -/
def hashPatternTest (url : List Char) : Bool := url.tails.any hashPatternAt

/-- Whether `[a-f0-9]{8,}-` matches starting at this suffix. -/
def chunkHashAt (s : List Char) : Bool :=
  decide (8 ≤ (s.takeWhile isHexLowerDigit).length) &&
    ((s.dropWhile isHexLowerDigit).head? == some '-')

/-- `chunkHashPattern.test(url)`. -/
def chunkHashTest (url : List Char) : Bool := url.tails.any chunkHashAt

/-- `needsRevision` from the source: true unless a content-hash or
chunk-hash pattern occurs in the URL. -/
def needsRevision (url : List Char) : Bool :=
  !(hashPatternTest url) && !(chunkHashTest url)

/-- `generateRevisionHash`: the first 8 hex characters of the MD5 of the
file's bytes; on read failure, of the current timestamp text. -/
def generateRevisionHash (fs : FSModel) (path : List Char) : List Char :=
  match fs.readFile path with
  | some bytes => (md5Hex bytes).take 8
  | none => (md5Hex fs.timestamp).take 8

/-- `applyURLPrefixModifications`: the first matching prefix is replaced
and iteration stops. -/
def applyURLPrefixModifications (url : List Char) :
    List ((List Char) × (List Char)) → List Char
  | [] => url
  | (orig, repl) :: rest =>
    if List.isPrefixOf orig url then repl ++ url.drop orig.length
    else applyURLPrefixModifications url rest

/-- JavaScript `Set` insertion-order deduplication (first occurrence
kept). -/
def jsSetDedupGo (seen : List (List Char)) : List (List Char) →
    List (List Char)
  | [] => []
  | x :: rest =>
    if seen.contains x then jsSetDedupGo seen rest
    else x :: jsSetDedupGo (x :: seen) rest

/-- `Array.from(new Set(l))`. -/
def jsSetDedup (l : List (List Char)) : List (List Char) := jsSetDedupGo [] l

/-- The string elements of an array value (non-arrays contribute
nothing, as a missing manifest field does). -/
def jsStringElems (v : JSValue) : List (List Char) :=
  match v with
  | .array es =>
    es.filterMap (fun e =>
      match e with
      | .jsString s => some s
      | _ => none)
  | _ => []

/-- The page-asset lists of the build manifest's `pages` record, in
insertion order. -/
def pagesAssets (v : JSValue) : List (List Char) :=
  match v with
  | .object fields => fields.flatMap (fun kv => jsStringElems kv.2)
  | _ => []

/-- `extractAssetsFromManifest`: polyfill, root-main, low-priority and
page assets, deduplicated in insertion order. -/
def extractAssetsFromManifest (m : JSValue) : List (List Char) :=
  jsSetDedup (jsStringElems (getField m (cs "polyfillFiles")) ++
    jsStringElems (getField m (cs "rootMainFiles")) ++
    jsStringElems (getField m (cs "lowPriorityFiles")) ++
    pagesAssets (getField m (cs "pages")))

/-- `readBuildManifest`: read `build-manifest.json` under the build
directory and `JSON.parse` it; any failure yields `none`. -/
def readBuildManifest (fs : FSModel) (buildDir : List Char) :
    Option JSValue :=
  (fs.readFile (pathJoin2 buildDir (cs "build-manifest.json"))).bind
    (fun bytes => jsonParse (bytes.map Char.ofNat))

/-- `getStaticBuildFiles`: list `buildDir/static` recursively, prefix with
`/_next/static/`, and drop traversal-bearing paths. -/
def getStaticBuildFiles (fs : FSModel) (buildDir : List Char) :
    List (List Char) :=
  match fs.listDir (pathJoin2 buildDir (cs "static")) with
  | none => []
  | some files =>
    (files.map (fun f => cs "/_next/static/" ++ f)).filter
      (fun f => !(hasPathTraversal f))

/-- `getPublicFiles`: list the public directory (after its own containment
check), apply the exclusion globs, prefix with `/`, and drop
traversal-bearing paths. -/
def getPublicFiles (fs : FSModel) (o : ManifestGeneratorOptions) :
    List (List Char) :=
  match fs.listDir o.publicDir with
  | none => []
  | some files =>
    if !(isPathWithinProject o.publicDir o.projectRoot) then []
    else
      ((files.filter (fun f =>
          !(o.publicExcludes.any (fun pat => globMatch pat f)))).map
        (fun f => '/' :: f)).filter (fun f => !(hasPathTraversal f))

/-- `basePath` prefixing (`basePath && basePath !== "/"`). -/
def addBasePath (basePath url : List Char) : List Char :=
  if basePath ≠ [] ∧ basePath ≠ ['/'] then basePath ++ url else url

/-- `asset.replace(/^\/_next\//, "")`. -/
def stripNextSeg (asset : List Char) : List Char :=
  if List.isPrefixOf (cs "/_next/") asset then asset.drop 7 else asset

/-- The build-asset loop body before the duplicate check: `none` is a
`continue`, otherwise the entry that would be pushed. -/
def buildAssetEntry (o : ManifestGeneratorOptions) (fs : FSModel)
    (asset : List Char) : Option PrecacheEntry :=
  if sanitizePath asset = [] ∧ asset ≠ [] then none
  else if matchesExclusion asset o.buildExcludes then none
  else
    let url0 := if asset.head? = some '/' then asset else '/' :: asset
    let url := applyURLPrefixModifications (addBasePath o.basePath url0)
      o.modifyURLPrefix
    some ⟨url,
      if needsRevision url then
        some (generateRevisionHash fs (pathJoin2 o.buildDir
          (stripNextSeg asset)))
      else none⟩

/-- The public-file loop body before the duplicate check. -/
def publicFileEntry (o : ManifestGeneratorOptions) (fs : FSModel)
    (file : List Char) : Option PrecacheEntry :=
  some ⟨applyURLPrefixModifications (addBasePath o.basePath file)
      o.modifyURLPrefix,
    some (generateRevisionHash fs (pathJoin2 o.publicDir (file.drop 1)))⟩

/-- The additional-entry loop body before the duplicate check. -/
def additionalEntryCand (o : ManifestGeneratorOptions)
    (e : PrecacheEntry) : Option PrecacheEntry :=
  if e.url = [] then none
  else if hasPathTraversal e.url then none
  else
    let url1 := if e.url.head? = some '/' then addBasePath o.basePath e.url
      else e.url
    some ⟨applyURLPrefixModifications url1 o.modifyURLPrefix, e.revision⟩

/-- One phase of the generator loop: per item, compute the candidate entry
(`none` = `continue`), skip urls already seen, record kept urls in the
seen set, and return the pushed entries together with the final seen
set. -/
def processCandidates (cand : α → Option PrecacheEntry) :
    List α → List (List Char) → (List PrecacheEntry × List (List Char))
  | [], seen => ([], seen)
  | x :: rest, seen =>
    match cand x with
    | none => processCandidates cand rest seen
    | some e =>
      if seen.contains e.url then processCandidates cand rest seen
      else
        let p := processCandidates cand rest (e.url :: seen)
        (e :: p.1, p.2)

/-- `generatePrecacheManifest` from `src/adapter/manifest-generator.ts`:
the two containment checks throw first; then build assets (manifest assets
and static files, Set-deduplicated), public files and additional entries
are processed in order, sharing one seen-URL set. -/
def generatePrecacheManifest (o : ManifestGeneratorOptions) (fs : FSModel) :
    Except (List Char) (List PrecacheEntry) :=
  if !(isPathWithinProject o.buildDir o.projectRoot) then
    .error (cs "Build directory is outside project root - security violation")
  else if !(isPathWithinProject o.publicDir o.projectRoot) then
    .error (cs "Public directory is outside project root - security violation")
  else
    let manifestAssets :=
      match readBuildManifest fs o.buildDir with
      | some m => extractAssetsFromManifest m
      | none => []
    let allBuildAssets :=
      jsSetDedup (manifestAssets ++ getStaticBuildFiles fs o.buildDir)
    let p1 := processCandidates (buildAssetEntry o fs) allBuildAssets []
    let p2 := processCandidates (publicFileEntry o fs)
      (getPublicFiles fs o) p1.2
    let p3 := processCandidates (additionalEntryCand o)
      o.additionalManifestEntries p2.2
    .ok (p1.1 ++ p2.1 ++ p3.1)

/-- The bytes of the chunk file in the C6 scenario. -/
def c6ChunkBytes : List Nat := (cs "console.log(1);\n").map Char.toNat

/-- The bytes of `robots.txt` in the C6 scenario. -/
def c6RobotsBytes : List Nat := (cs "User-agent: *\n").map Char.toNat

/-- The C6 scenario file system: one chunk under the build directory's
`static` tree and one public file. -/
def c6FileSystem : FSModel where
  readFile := fun p =>
    if p = cs "/proj/.next/static/chunks/abcdef1234.js" then some c6ChunkBytes
    else if p = cs "/proj/public/robots.txt" then some c6RobotsBytes
    else none
  listDir := fun p =>
    if p = cs "/proj/.next/static" then some [cs "chunks/abcdef1234.js"]
    else if p = cs "/proj/public" then some [cs "robots.txt"]
    else none
  timestamp := (cs "1700000000000").map Char.toNat

/-- The C6 scenario options: basePath `/app`, empty exclusions, rewrites
and extra entries. -/
def c6Options : ManifestGeneratorOptions where
  buildDir := cs "/proj/.next"
  publicDir := cs "/proj/public"
  basePath := cs "/app"
  publicExcludes := []
  buildExcludes := []
  additionalManifestEntries := []
  modifyURLPrefix := []
  projectRoot := cs "/proj"

/-- C6 counterexample: in the two-entry scenario the chunk entry does
*not* get a null revision — `abcdef1234.js` matches neither the
`.{hash}.{ext}` pattern (no dot before the hex run) nor the `{hash}-`
chunk pattern (no trailing dash), so the generator hashes the file's
contents instead. -/
theorem generateManifest_scenario_chunk_not_null :
    generatePrecacheManifest c6Options c6FileSystem ≠
      Except.ok [⟨cs "/app/_next/static/chunks/abcdef1234.js", none⟩,
        ⟨cs "/app/robots.txt", some ((md5Hex c6RobotsBytes).take 8)⟩] := by
  intro h
  rw [show generatePrecacheManifest c6Options c6FileSystem =
    Except.ok [⟨cs "/app/_next/static/chunks/abcdef1234.js",
        some ((md5Hex c6ChunkBytes).take 8)⟩,
      ⟨cs "/app/robots.txt", some ((md5Hex c6RobotsBytes).take 8)⟩]
    from rfl] at h
  injection h with h
  exact absurd h (by decide)

/-- C6 (amended): the scenario yields exactly the two expected URLs in
phase order, but *both* carry content revisions: each revision is the
first 8 hex characters of the MD5 digest of the respective file's
bytes. -/
theorem generateManifest_scenario :
    generatePrecacheManifest c6Options c6FileSystem =
      Except.ok [⟨cs "/app/_next/static/chunks/abcdef1234.js",
          some ((md5Hex c6ChunkBytes).take 8)⟩,
        ⟨cs "/app/robots.txt", some ((md5Hex c6RobotsBytes).take 8)⟩] := by
  rfl

/-- C9: a failed containment check on either directory is fatal before
any file-system access: the generator returns the corresponding security
error for *every* file system, and the outcome does not depend on the
file system at all (so nothing is enumerated and no partial manifest can
exist). -/
theorem generateManifest_containment_fatal (o : ManifestGeneratorOptions)
    (h : isPathWithinProject o.buildDir o.projectRoot = false ∨
      isPathWithinProject o.publicDir o.projectRoot = false) :
    ∀ fs : FSModel,
      (generatePrecacheManifest o fs = Except.error
          (cs "Build directory is outside project root - security violation") ∨
        generatePrecacheManifest o fs = Except.error
          (cs "Public directory is outside project root - security violation")) ∧
      (∀ fs' : FSModel,
        generatePrecacheManifest o fs = generatePrecacheManifest o fs') := by
  intro fs
  cases hbuild : isPathWithinProject o.buildDir o.projectRoot with
  | false =>
    constructor
    · left
      simp [generatePrecacheManifest, hbuild]
    · intro fs'
      simp [generatePrecacheManifest, hbuild]
  | true =>
    rcases h with h | h
    · rw [hbuild] at h
      exact Bool.noConfusion h
    · constructor
      · right
        simp [generatePrecacheManifest, hbuild, h]
      · intro fs'
        simp [generatePrecacheManifest, hbuild, h]

/-- The C9 witness options: a build directory outside the project root. -/
def c9Options : ManifestGeneratorOptions where
  buildDir := cs "/other/build"
  publicDir := cs "/proj/public"
  basePath := []
  publicExcludes := []
  buildExcludes := []
  additionalManifestEntries := []
  modifyURLPrefix := []
  projectRoot := cs "/proj"

/-- The C9 witness file system. -/
def c9FileSystem : FSModel where
  readFile := fun _ => none
  listDir := fun _ => none
  timestamp := []

/-- C9 witness: the containment theorem at a concrete offending option
set. -/
theorem generateManifest_containment_fatal_witness :
    (isPathWithinProject c9Options.buildDir c9Options.projectRoot = false ∨
      isPathWithinProject c9Options.publicDir c9Options.projectRoot = false) ∧
    ((generatePrecacheManifest c9Options c9FileSystem = Except.error
        (cs "Build directory is outside project root - security violation") ∨
      generatePrecacheManifest c9Options c9FileSystem = Except.error
        (cs "Public directory is outside project root - security violation")) ∧
     (∀ fs' : FSModel,
       generatePrecacheManifest c9Options c9FileSystem =
         generatePrecacheManifest c9Options fs')) :=
  ⟨Or.inl (by decide),
   generateManifest_containment_fatal c9Options (Or.inl (by decide))
     c9FileSystem⟩

/-- The specification-side deduplication: keep the first entry for each
final URL, in order. -/
def dedupFirstWins (seen : List (List Char)) :
    List PrecacheEntry → List PrecacheEntry
  | [] => []
  | e :: rest =>
    if seen.contains e.url then dedupFirstWins seen rest
    else e :: dedupFirstWins (e.url :: seen) rest

/-- The seen-URL set after deduplicating a candidate list. -/
def seenAfter (seen : List (List Char)) :
    List PrecacheEntry → List (List Char)
  | [] => seen
  | e :: rest =>
    if seen.contains e.url then seenAfter seen rest
    else seenAfter (e.url :: seen) rest

/-- All candidate entries of a generator run in phase order (build
assets, public files, additional entries), before URL deduplication. -/
def manifestCandidates (o : ManifestGeneratorOptions) (fs : FSModel) :
    List PrecacheEntry :=
  (jsSetDedup ((match readBuildManifest fs o.buildDir with
      | some m => extractAssetsFromManifest m
      | none => []) ++ getStaticBuildFiles fs o.buildDir)).filterMap
    (buildAssetEntry o fs) ++
  (getPublicFiles fs o).filterMap (publicFileEntry o fs) ++
  o.additionalManifestEntries.filterMap (additionalEntryCand o)

/-- Each generator phase is exactly first-wins deduplication of its
candidate entries. -/
lemma processCandidates_eq {α : Type} (cand : α → Option PrecacheEntry) :
    ∀ (xs : List α) (seen : List (List Char)),
      processCandidates cand xs seen =
        (dedupFirstWins seen (xs.filterMap cand),
         seenAfter seen (xs.filterMap cand)) := by
  intro xs
  induction xs with
  | nil => intro seen; rfl
  | cons x rest ih =>
    intro seen
    rw [processCandidates]
    cases hc : cand x with
    | none =>
      simp only [List.filterMap_cons, hc]
      exact ih seen
    | some e =>
      simp only [List.filterMap_cons, hc]
      by_cases hseen : seen.contains e.url = true
      · rw [if_pos hseen, dedupFirstWins, seenAfter, if_pos hseen,
          if_pos hseen]
        exact ih seen
      · rw [if_neg hseen, dedupFirstWins, seenAfter,
          if_neg hseen, if_neg hseen, ih (e.url :: seen)]

/-- First-wins deduplication splits over concatenation, threading the
seen set. -/
lemma dedupFirstWins_append (a b : List PrecacheEntry) :
    ∀ seen, dedupFirstWins seen (a ++ b) =
      dedupFirstWins seen a ++ dedupFirstWins (seenAfter seen a) b := by
  induction a with
  | nil => intro seen; rfl
  | cons e rest ih =>
    intro seen
    rw [List.cons_append, dedupFirstWins, dedupFirstWins, seenAfter]
    by_cases hseen : seen.contains e.url = true
    · rw [if_pos hseen, if_pos hseen, if_pos hseen, ih seen]
    · rw [if_neg hseen, if_neg hseen, if_neg hseen, ih (e.url :: seen),
        List.cons_append]

/-- The URLs kept by first-wins deduplication are pairwise distinct and
avoid the initial seen set. -/
lemma dedupFirstWins_nodup (l : List PrecacheEntry) :
    ∀ seen, ((dedupFirstWins seen l).map PrecacheEntry.url).Nodup ∧
      ∀ u ∈ (dedupFirstWins seen l).map PrecacheEntry.url,
        seen.contains u = false := by
  induction l with
  | nil =>
    intro seen
    refine ⟨List.nodup_nil, fun u hu => ?_⟩
    rw [show dedupFirstWins seen [] = [] from rfl] at hu
    simp at hu
  | cons e rest ih =>
    intro seen
    rw [dedupFirstWins]
    by_cases hseen : seen.contains e.url = true
    · rw [if_pos hseen]
      exact ih seen
    · rw [if_neg hseen]
      obtain ⟨hnd, havoid⟩ := ih (e.url :: seen)
      constructor
      · rw [List.map_cons, List.nodup_cons]
        refine ⟨fun hmem => ?_, hnd⟩
        have := havoid e.url hmem
        rw [List.contains_cons] at this
        simp at this
      · intro u hu
        rw [List.map_cons, List.mem_cons] at hu
        rcases hu with hu | hu
        · subst hu
          exact Bool.eq_false_iff.mpr hseen
        · have := havoid u hu
          rw [List.contains_cons] at this
          exact (Bool.or_eq_false_iff.mp this).2

/-- The seen set after a concatenation. -/
lemma seenAfter_append (a b : List PrecacheEntry) :
    ∀ seen, seenAfter seen (a ++ b) = seenAfter (seenAfter seen a) b := by
  induction a with
  | nil => intro seen; rfl
  | cons e rest ih =>
    intro seen
    rw [List.cons_append, seenAfter, seenAfter]
    by_cases hseen : seen.contains e.url = true
    · rw [if_pos hseen, if_pos hseen, ih seen]
    · rw [if_neg hseen, if_neg hseen, ih (e.url :: seen)]

/-- C1: every successful generator run yields pairwise-distinct final
URLs, and the result is exactly the first-wins deduplication of the
candidate entries in phase order (build assets, then public files, then
additional entries). -/
theorem generateManifest_urls_nodup (o : ManifestGeneratorOptions)
    (fs : FSModel) (res : List PrecacheEntry)
    (h : generatePrecacheManifest o fs = Except.ok res) :
    res = dedupFirstWins [] (manifestCandidates o fs) ∧
    (res.map PrecacheEntry.url).Nodup := by
  cases hbuild : isPathWithinProject o.buildDir o.projectRoot with
  | false =>
    simp only [generatePrecacheManifest, hbuild, Bool.not_false, if_true]
      at h
    exact Except.noConfusion h
  | true =>
    cases hpublic : isPathWithinProject o.publicDir o.projectRoot with
    | false =>
      simp only [generatePrecacheManifest, hbuild, hpublic, Bool.not_false,
        Bool.not_true, if_false, if_true] at h
      exact Except.noConfusion h
    | true =>
      simp only [generatePrecacheManifest, hbuild, hpublic, Bool.not_true,
        if_false] at h
      injection h with h
      have heq : dedupFirstWins [] (manifestCandidates o fs) = res := by
        rw [← h]
        rw [processCandidates_eq, processCandidates_eq, processCandidates_eq]
        simp only []
        rw [manifestCandidates, dedupFirstWins_append, dedupFirstWins_append,
          seenAfter_append]
      refine ⟨heq.symm, ?_⟩
      rw [← heq]
      exact (dedupFirstWins_nodup (manifestCandidates o fs) []).1

/-- The C1 witness file system (reads fail, so revisions fall back to the
timestamp hash). -/
def c1FileSystem : FSModel where
  readFile := fun _ => none
  listDir := fun p =>
    if p = cs "/r/.next/static" then some [cs "app.js"]
    else if p = cs "/r/public" then some [cs "robots.txt"]
    else none
  timestamp := (cs "123").map Char.toNat

/-- The C1 witness options: an additional entry collides with the public
`robots.txt` URL and must be dropped. -/
def c1Options : ManifestGeneratorOptions where
  buildDir := cs "/r/.next"
  publicDir := cs "/r/public"
  basePath := []
  publicExcludes := []
  buildExcludes := []
  additionalManifestEntries :=
    [⟨cs "/robots.txt", some (cs "x1")⟩, ⟨cs "/extra.css", some (cs "x2")⟩]
  modifyURLPrefix := []
  projectRoot := cs "/r"

/-- The C1 witness output. -/
def c1Result : List PrecacheEntry :=
  [⟨cs "/_next/static/app.js", some (cs "202cb962")⟩,
   ⟨cs "/robots.txt", some (cs "202cb962")⟩,
   ⟨cs "/extra.css", some (cs "x2")⟩]

set_option maxRecDepth 100000 in
/-- C1 witness: the uniqueness theorem at a concrete run in which a
duplicate URL is actually dropped. -/
theorem generateManifest_urls_nodup_witness :
    generatePrecacheManifest c1Options c1FileSystem = Except.ok c1Result ∧
    (c1Result = dedupFirstWins [] (manifestCandidates c1Options c1FileSystem) ∧
     (c1Result.map PrecacheEntry.url).Nodup) :=
  ⟨rfl, generateManifest_urls_nodup c1Options c1FileSystem c1Result rfl⟩
